import Mathlib

/-!
Verification of the card-printing normalization and deduplication pipeline
(cards/address.py, cards/utils.py, cards/processing.py, cards/config.py).

Python strings are modelled as lists of Unicode code points (List Nat).
The string primitives the source relies on (strip, split, lower, upper,
title, regular-expression matching) are embedded below for the ASCII
range, which covers every string constant and every decision the
pipeline makes.  Fallible operations return Option.
-/

/-- A Python string, as its list of code points. -/
abbrev PyStr := List Nat

/-- Code-point list of a Lean string literal. -/
def txt (s : String) : PyStr := s.toList.map Char.toNat

/-- ASCII whitespace, the set recognised by Python str.strip and by
the regular-expression class backslash-s on the inputs modelled here. -/
def isWs (c : Nat) : Bool := c = 32 || c = 9 || c = 10 || c = 13 || c = 11 || c = 12

/-- Python str.lower on one ASCII code point. -/
def toLowerN (c : Nat) : Nat := if 65 ≤ c ∧ c ≤ 90 then c + 32 else c

/-- Python str.upper on one ASCII code point. -/
def toUpperN (c : Nat) : Nat := if 97 ≤ c ∧ c ≤ 122 then c - 32 else c

/-- ASCII letter. -/
def isAlphaN (c : Nat) : Bool := (65 ≤ c && c ≤ 90) || (97 ≤ c && c ≤ 122)

/-- ASCII digit. -/
def isDigitN (c : Nat) : Bool := 48 ≤ c && c ≤ 57

def lower (s : PyStr) : PyStr := s.map toLowerN

def upper (s : PyStr) : PyStr := s.map toUpperN

/-- Python str.lstrip (whitespace). -/
def stripLeft (s : PyStr) : PyStr := s.dropWhile (fun c => isWs c)

/-- Python str.rstrip (whitespace). -/
def stripRight (s : PyStr) : PyStr := (s.reverse.dropWhile (fun c => isWs c)).reverse

/-- Python str.strip (whitespace). -/
def strip (s : PyStr) : PyStr := stripRight (stripLeft s)

/-- Worker for pySplit: acc is the reversed current token. -/
def pySplitGo : PyStr → PyStr → List PyStr
  | acc, [] => if acc = [] then [] else [acc.reverse]
  | acc, c :: t =>
    if isWs c then (if acc = [] then pySplitGo [] t else acc.reverse :: pySplitGo [] t)
    else pySplitGo (c :: acc) t

/-- Python str.split with no argument: maximal runs of non-whitespace,
no empty tokens. -/
def pySplit (s : PyStr) : List PyStr := pySplitGo [] s

/-- Joining with a single space (Python " ".join). -/
def joinSpace (l : List PyStr) : PyStr := List.intercalate [32] l

/-- Joining with a dash (Python "-".join). -/
def joinDash (l : List PyStr) : PyStr := List.intercalate [45] l

/-- One step of Python str.title: the Boolean says whether the previous
character was a cased (here: ASCII alphabetic) character. -/
def titleGo : Bool → PyStr → PyStr
  | _, [] => []
  | prev, c :: t =>
    (if isAlphaN c then (if prev then toLowerN c else toUpperN c) else c)
      :: titleGo (isAlphaN c) t

/-- Python str.title (ASCII). -/
def pyTitle (s : PyStr) : PyStr := titleGo false s

/-- The punctuation stripped by the address normalizer, Python
str.strip with argument ",." . -/
def isPunct (c : Nat) : Bool := c = 44 || c = 46

def stripPunct (s : PyStr) : PyStr :=
  ((s.dropWhile (fun c => isPunct c)).reverse.dropWhile (fun c => isPunct c)).reverse

/-- Lexicographic strict order on code-point lists: the order Python uses
to compare strings. -/
def lexLt : PyStr → PyStr → Bool
  | [], [] => false
  | [], _ :: _ => true
  | _ :: _, [] => false
  | a :: s, b :: t => if a < b then true else if b < a then false else lexLt s t

/-- The reflexive closure of lexLt, as a Prop relation for sorting. -/
def lexLe (a b : PyStr) : Prop := lexLt a b = true ∨ a = b

instance : DecidableRel lexLe := fun a b => by
  unfold lexLe; infer_instance

/-- Python sorted(set(l)): the distinct elements of l in increasing
lexicographic order. -/
def dedupSort (l : List PyStr) : List PyStr := List.insertionSort lexLe l.dedup

/-- Association-list lookup (Python dict access for the fixed tables). -/
def lookupA : List (PyStr × PyStr) → PyStr → Option PyStr
  | [], _ => none
  | (k, v) :: t, x => if k = x then some v else lookupA t x

/-!
NameNormalizer (cards/utils.py).

NAME_COMMA_RE is the pattern caret (?P<last>[^,]+),backslash-s*(?P<first>[^,]+)(?:,?backslash-s*(?P<middle>.+))?$ .
The functions below reproduce the leftmost-greedy backtracking search of
the Python re engine for exactly this pattern: dot does not match a
newline, and the dollar anchor matches at the end of the string or just
before one final newline.
-/

/-- Match (.+)$ against u: the dot class excludes the newline, the anchor
accepts the end of the string or a position before one final newline. -/
def dotPlusEnd (u : PyStr) : Option PyStr :=
  if u ≠ [] ∧ u.all (fun c => c ≠ 10) then some u
  else
    match u.getLast? with
    | some 10 =>
      let v := u.dropLast
      if v ≠ [] ∧ v.all (fun c => c ≠ 10) then some v else none
    | _ => none

/-- Match backslash-s*(.+)$ against t, the star greedy with backtracking. -/
def tryWsMiddle : PyStr → Option PyStr
  | [] => dotPlusEnd []
  | c :: t =>
    if isWs c then
      match tryWsMiddle t with
      | some m => some m
      | none => dotPlusEnd (c :: t)
    else dotPlusEnd (c :: t)

/-- Match ,?backslash-s*(.+)$ against t, the optional comma preferred. -/
def tryGroup (t : PyStr) : Option PyStr :=
  match t with
  | 44 :: rest =>
    (match tryWsMiddle rest with
     | some m => some m
     | none => tryWsMiddle t)
  | _ => tryWsMiddle t

/-- Match (?:,?backslash-s*(.+))?$ against t: group preferred, otherwise
the anchor must hold here. -/
def optMiddle (t : PyStr) : Option (Option PyStr) :=
  match tryGroup t with
  | some m => some (some m)
  | none => if t = [] ∨ t = [10] then some none else none

/-- Greedy continuation of the first-name group [^,]+ : extend while the
next character is not a comma, backtracking into optMiddle. -/
def fGreedy (acc : PyStr) : PyStr → Option (PyStr × Option PyStr)
  | [] => (optMiddle []).map (fun m => (acc, m))
  | c :: t =>
    if c = 44 then (optMiddle (c :: t)).map (fun m => (acc, m))
    else
      match fGreedy (acc ++ [c]) t with
      | some r => some r
      | none => (optMiddle (c :: t)).map (fun m => (acc, m))

/-- Start of the first-name group: at least one non-comma character. -/
def fStart : PyStr → Option (PyStr × Option PyStr)
  | [] => none
  | c :: t => if c = 44 then none else fGreedy [c] t

/-- Match backslash-s*([^,]+)(?:,?backslash-s*(.+))?$ with greedy
backtracking on the leading whitespace. -/
def wsLoop : PyStr → Option (PyStr × Option PyStr)
  | [] => none
  | c :: t =>
    if isWs c then
      match wsLoop t with
      | some r => some r
      | none => fStart (c :: t)
    else fStart (c :: t)

/-- re.match of NAME_COMMA_RE: the last group is everything before the
first comma (nonempty), then the rest of the pattern on the remainder.
Returns (last, first, middle?). -/
def nameCommaMatch (s : PyStr) : Option (PyStr × PyStr × Option PyStr) :=
  match s.dropWhile (fun c => c ≠ 44) with
  | 44 :: r2 =>
    let lastPart := s.takeWhile (fun c => c ≠ 44)
    if lastPart = [] then none
    else (wsLoop r2).map (fun fm => (lastPart, fm.1, fm.2))
  | _ => none

/-- cards/utils.py normalize_name. -/
def normalize_name (name : PyStr) : PyStr × List PyStr :=
  let n := strip name
  if n = [] then ([], [txt "missing_name"])
  else
    match nameCommaMatch n with
    | some (lastPart, firstPart, mid) =>
      let parts : List PyStr :=
        [pyTitle firstPart]
          ++ (match mid with
              | some m => if m = [] then [] else [joinSpace ((pySplit m).map pyTitle)]
              | none => [])
          ++ [pyTitle lastPart]
      (joinSpace parts, [txt "name_flipped"])
    | none => (joinSpace ((pySplit n).map pyTitle), [])

/-!
AddressNormalizer (cards/address.py).
-/

/-- The fixed street-abbreviation table ABBREVIATIONS. -/
def abbreviations : List (PyStr × PyStr) :=
  [(txt "st", txt "Street"), (txt "ave", txt "Avenue"), (txt "blvd", txt "Boulevard"),
   (txt "dr", txt "Drive"), (txt "ln", txt "Lane"), (txt "pl", txt "Place"),
   (txt "rd", txt "Road"), (txt "hwy", txt "Highway"), (txt "pkwy", txt "Parkway"),
   (txt "ct", txt "Court"), (txt "cir", txt "Circle"), (txt "trl", txt "Trail"),
   (txt "way", txt "Way")]

/-- The STATE_ABBREVS table, full state name (lower case) to USPS code. -/
def stateAbbrevs : List (PyStr × PyStr) :=
  [(txt "alabama", txt "AL"), (txt "alaska", txt "AK"), (txt "arizona", txt "AZ"),
   (txt "arkansas", txt "AR"), (txt "california", txt "CA"), (txt "colorado", txt "CO"),
   (txt "connecticut", txt "CT"), (txt "delaware", txt "DE"), (txt "florida", txt "FL"),
   (txt "georgia", txt "GA"), (txt "hawaii", txt "HI"), (txt "idaho", txt "ID"),
   (txt "illinois", txt "IL"), (txt "indiana", txt "IN"), (txt "iowa", txt "IA"),
   (txt "kansas", txt "KS"), (txt "kentucky", txt "KY"), (txt "louisiana", txt "LA"),
   (txt "maine", txt "ME"), (txt "maryland", txt "MD"), (txt "massachusetts", txt "MA"),
   (txt "michigan", txt "MI"), (txt "minnesota", txt "MN"), (txt "mississippi", txt "MS"),
   (txt "missouri", txt "MO"), (txt "montana", txt "MT"), (txt "nebraska", txt "NE"),
   (txt "nevada", txt "NV"), (txt "new hampshire", txt "NH"), (txt "new jersey", txt "NJ"),
   (txt "new mexico", txt "NM"), (txt "new york", txt "NY"), (txt "north carolina", txt "NC"),
   (txt "north dakota", txt "ND"), (txt "ohio", txt "OH"), (txt "oklahoma", txt "OK"),
   (txt "oregon", txt "OR"), (txt "pennsylvania", txt "PA"), (txt "rhode island", txt "RI"),
   (txt "south carolina", txt "SC"), (txt "south dakota", txt "SD"), (txt "tennessee", txt "TN"),
   (txt "texas", txt "TX"), (txt "utah", txt "UT"), (txt "vermont", txt "VT"),
   (txt "virginia", txt "VA"), (txt "washington", txt "WA"), (txt "west virginia", txt "WV"),
   (txt "wisconsin", txt "WI"), (txt "wyoming", txt "WY")]

/-- USPS_STATES: the set of values of STATE_ABBREVS. -/
def uspsStates : List PyStr := stateAbbrevs.map (fun p => p.2)

/-- One token of normalize_address: lower-case, strip trailing and
leading comma or dot, look up the abbreviation table, else title-case
the original token. -/
def addrToken (t : PyStr) : PyStr :=
  match lookupA abbreviations (stripPunct (lower t)) with
  | some v => v
  | none => pyTitle t

/-- re.split on backslash-s+ of an already stripped string: the empty
string gives one empty token, otherwise the whitespace-separated runs. -/
def reSplitWs (s : PyStr) : List PyStr := if s = [] then [[]] else pySplit s

/-- cards/address.py normalize_address. -/
def normalize_address (address : PyStr) : PyStr :=
  joinSpace ((reSplitWs (strip address)).map addrToken)

/-- cards/address.py normalize_state. -/
def normalize_state (state : PyStr) : PyStr × List PyStr :=
  let s := strip state
  if s.length = 2 ∧ upper s ∈ uspsStates then (upper s, [])
  else
    match lookupA stateAbbrevs (lower s) with
    | some code => (code, [txt "state_name_converted"])
    | none => (upper s, [txt "invalid_state"])

/-- ZIP_RE: caret (?P<zip5>backslash-d{5})(?:[- ]?(?P<zip4>backslash-d{4}))?$
matched against a string; the dollar anchor also accepts a position before
one final newline. -/
def zipRest2 (s : PyStr) : PyStr :=
  if (s.drop 5).head? = some 45 ∨ (s.drop 5).head? = some 32 then (s.drop 5).tail
  else s.drop 5

def zipMatch (s : PyStr) : Option (PyStr × Option PyStr) :=
  if (s.take 5).length = 5 ∧ (s.take 5).all (fun c => isDigitN c) then
    if s.drop 5 = [] ∨ s.drop 5 = [10] then some (s.take 5, none)
    else
      if ((zipRest2 s).take 4).length = 4 ∧ ((zipRest2 s).take 4).all (fun c => isDigitN c)
          ∧ ((zipRest2 s).drop 4 = [] ∨ (zipRest2 s).drop 4 = [10])
      then some (s.take 5, some ((zipRest2 s).take 4))
      else none
  else none

/-- cards/address.py normalize_zip. -/
def normalize_zip (zip_code : PyStr) : Option PyStr × Option PyStr × List PyStr :=
  if zip_code = [] then (none, none, [txt "missing_zip"])
  else
    match zipMatch (strip zip_code) with
    | none => (none, none, [txt "invalid_zip"])
    | some (z5, z4) => (some z5, z4, [])

/-- cards/address.py normalize_city. -/
def normalize_city (city : PyStr) : PyStr := pyTitle (strip city)

/-- Output record of validate_and_normalize_address. -/
structure AddressValidationResult where
  address : PyStr
  city : PyStr
  state : PyStr
  zip5 : PyStr
  zip4 : Option PyStr
  inferred : Bool
  reasons : List PyStr
deriving DecidableEq, Repr

/-- cards/address.py validate_and_normalize_address.  The ZIP lookup
table (loaded by load_zip_db from a csv data file that is external to the
modelled core) is passed in as the function zipDb, embedding
infer_city_state_from_zip, which is zip_db.get. -/
def validate_and_normalize_address (zipDb : PyStr → Option (PyStr × PyStr))
    (address city state zip_code : PyStr) : AddressValidationResult :=
  let z := normalize_zip zip_code
  let z5 := z.1
  let z4 := z.2.1
  let reasons0 : List PyStr := z.2.2
  let city0 := if city ≠ [] then normalize_city city else []
  let st0 := strip state
  let stPair :=
    if st0 ≠ [] then
      let ns := normalize_state st0
      (ns.1, reasons0 ++ ns.2)
    else ([], reasons0 ++ [txt "missing_state"])
  let st1 := stPair.1
  let reasons1 := stPair.2
  let cityStep :=
    match z5 with
    | some zv =>
      if city0 = [] then
        match zipDb zv with
        | some ic =>
          let st2 := if st1 = [] then ic.2 else st1
          let mism := if st1 ≠ [] ∧ st1 ≠ ic.2 then [txt "zip_state_mismatch"] else []
          (ic.1, st2, reasons1 ++ mism ++ [txt "inferred_city_state_from_zip"])
        | none => ([], st1, reasons1 ++ [txt "zip_not_found"])
      else (normalize_city city0, st1, reasons1)
    | none =>
      if city0 = [] then ([], st1, reasons1 ++ [txt "missing_city"])
      else (normalize_city city0, st1, reasons1)
  let city2 := cityStep.1
  let st2 := cityStep.2.1
  let reasons2 := cityStep.2.2
  let stateStep :=
    match z5 with
    | some zv =>
      if st2 = [] then
        match zipDb zv with
        | some ic => (ic.2, reasons2 ++ [txt "inferred_state_from_zip"])
        | none => (st2, reasons2)
      else (st2, reasons2)
    | none => (st2, reasons2)
  let st3 := stateStep.1
  let reasons3 := stateStep.2
  let reasons4 := if st3 = [] then reasons3 ++ [txt "missing_state"] else reasons3
  { address := normalize_address address
    city := city2
    state := st3
    zip5 := z5.getD []
    zip4 := z4
    inferred := txt "inferred_city_state_from_zip" ∈ reasons4
                ∨ txt "inferred_state_from_zip" ∈ reasons4
    reasons := dedupSort reasons4 }

/-!
IdentifierExtractor (cards/utils.py extract_heally) and the pipeline
data model (cards/processing.py, cards/config.py).
-/

/-- re.search of HEALLY_ID_RE, the pattern (backslash-d{6,}): the first
position at which six or more digits start, taken greedily.  The leftmost
match always starts at the beginning of a maximal digit run, so the
result is the first maximal digit run of length at least six. -/
def findIdGo : PyStr → PyStr → Option PyStr
  | acc, [] => if 6 ≤ acc.length then some acc.reverse else none
  | acc, c :: t =>
    if isDigitN c then findIdGo (c :: acc) t
    else if 6 ≤ acc.length then some acc.reverse else findIdGo [] t

def findIdRun (s : PyStr) : Option PyStr := findIdGo [] s

/-- cards/utils.py extract_heally.  The raw row is modelled by the list
of its string-typed values in iteration order (the search space the
source builds by joining them with spaces). -/
def extract_heally (link : Option PyStr) (rawValues : List PyStr) :
    PyStr × Option PyStr × List PyStr :=
  let present : Bool := match link with | some l => decide (strip l ≠ []) | none => false
  if present then
    let l := strip (link.getD [])
    (l, findIdRun l, [])
  else
    let space := joinSpace rawValues
    match findIdRun space with
    | some idRun =>
      (txt "https://getheally.com/super_admin/patient_users/" ++ idRun,
       some idRun, [txt "constructed_heally_link"])
    | none => (txt "N/A", none, [txt "missing_heally_link"])

/-- cards/config.py Settings. -/
structure Settings where
  db_url : PyStr
  timezone : PyStr
  export_dir : PyStr
  fuzzy_threshold : ℚ
deriving DecidableEq, Repr

/-- The dataclass defaults of Settings. -/
def defaultSettings : Settings :=
  { db_url := txt "sqlite:///./card_printing.db"
    timezone := txt "America/Los_Angeles"
    export_dir := txt "exports"
    fuzzy_threshold := 92 / 100 }

/-- cards/utils.py NormalizedEntry.  Datetimes are modelled by their
formatted text (format_datetime output); parsing is done by the external
strptime collaborator, passed as a parameter where needed.  The
normalized payload is a dict in insertion order whose values are strings
or None. -/
structure Entry where
  name : PyStr
  clinic_name : PyStr
  address : PyStr
  city : PyStr
  state : PyStr
  zip_code : PyStr
  heally_link : PyStr
  heally_id : Option PyStr
  date_time : Option PyStr
  list_source : PyStr
  payload : List (PyStr × Option PyStr)
  validation_status : PyStr
  uncertainty_reasons : List PyStr
deriving DecidableEq, Repr

/-- Python dict get on the payload. -/
def pget : List (PyStr × Option PyStr) → PyStr → Option (Option PyStr)
  | [], _ => none
  | (k, v) :: t, x => if k = x then some v else pget t x

/-- Python dict assignment on the payload: replace in place, else append
(insertion order preserved). -/
def pset : List (PyStr × Option PyStr) → PyStr → Option PyStr → List (PyStr × Option PyStr)
  | [], x, v => [(x, v)]
  | (k, w) :: t, x, v => if k = x then (x, v) :: t else (k, w) :: pset t x v

/-- cards/utils.py format_datetime on the modelled datetime. -/
def formatDT (d : Option PyStr) : PyStr := d.getD []

/-- cards/utils.py normalized_key: the case-folded identity key
(name, address, city, state, zip_code); the source lowers the first four
components and keeps zip_code as is. -/
def normalized_key (e : Entry) : List PyStr :=
  [lower e.name, lower e.address, lower e.city, lower e.state, e.zip_code]

/-- Python truthiness of an optional string (None and the empty string
are falsy). -/
def truthyId : Option PyStr → Bool
  | none => false
  | some s => decide (s ≠ [])

/-- cards/utils.py ratio helper: 1.0 when both strings are empty, else
the difflib SequenceMatcher ratio of the lower-cased strings.  The
SequenceMatcher ratio itself is standard-library code, passed in as the
parameter smRatio. -/
def pyRatio (smRatio : PyStr → PyStr → ℚ) (l r : PyStr) : ℚ :=
  if l = [] ∧ r = [] then 1 else smRatio (lower l) (lower r)

/-- cards/utils.py fuzzy_match_score: mean of the name ratio and the
address ratio. -/
def fuzzy_match_score (smRatio : PyStr → PyStr → ℚ) (a b : Entry) : ℚ :=
  (pyRatio smRatio a.name b.name + pyRatio smRatio a.address b.address) / 2

/-- One duplicate report, as assembled by the detection passes. -/
structure DupReport where
  rule : PyStr
  score : ℚ
  matched : Entry
  matched_entry_id : Option Nat
deriving DecidableEq, Repr

/-- True when the payload carries duplicate = Yes. -/
def isDupYes (e : Entry) : Bool :=
  decide (pget e.payload (txt "duplicate") = some (some (txt "Yes")))

/-- Set the payload key duplicate. -/
def setDup (e : Entry) (v : PyStr) : Entry :=
  { e with payload := pset e.payload (txt "duplicate") (some v) }

/-- The dict comprehension existing = (key(item) : item) over the history
cache: on key collision the later item overwrites, so lookup returns the
last item with the key. -/
def lookupLast (hist : List (Entry × Option Nat)) (k : List PyStr) :
    Option (Entry × Option Nat) :=
  hist.reverse.find? (fun it => decide (normalized_key it.1 = k))

/-- cards/processing.py DataProcessor.detect_duplicates, body of the loop
for one input entry: exact key against the history index, else external
(heally) id scan, else fuzzy scan; the entry is marked duplicate Yes on a
match and No otherwise. -/
def detectOne (smRatio : PyStr → PyStr → ℚ) (threshold : ℚ)
    (hist : List (Entry × Option Nat)) (e : Entry) : List DupReport × Entry :=
  match lookupLast hist (normalized_key e) with
  | some m => ([⟨txt "exact_key", 1, m.1, m.2⟩], setDup e (txt "Yes"))
  | none =>
    let step1 : List DupReport × Entry :=
      if truthyId e.heally_id then
        match hist.find? (fun it =>
            truthyId it.1.heally_id && decide (it.1.heally_id = e.heally_id)) with
        | some m => ([⟨txt "heally_id", 1, m.1, m.2⟩], setDup e (txt "Yes"))
        | none => ([], e)
      else ([], e)
    if isDupYes step1.2 then step1
    else
      match hist.find? (fun it =>
          decide (threshold ≤ fuzzy_match_score smRatio e it.1)) with
      | some m =>
        (step1.1 ++ [⟨txt "fuzzy", fuzzy_match_score smRatio e m.1, m.1, m.2⟩],
         setDup step1.2 (txt "Yes"))
      | none =>
        (step1.1, if isDupYes step1.2 then step1.2 else setDup step1.2 (txt "No"))

/-- cards/processing.py DataProcessor.detect_duplicates over a list of
entries: the history cache is fixed for the whole pass and each entry is
handled independently. -/
def detect_duplicates (smRatio : PyStr → PyStr → ℚ) (threshold : ℚ)
    (hist : List (Entry × Option Nat)) (entries : List Entry) :
    List DupReport × List Entry :=
  let results := entries.map (detectOne smRatio threshold hist)
  ((results.map Prod.fst).flatten, results.map Prod.snd)

/-- The three within-batch rules applied to one seen record, in source
order: exact key, elif external (heally) id, elif fuzzy. -/
def match3 (smRatio : PyStr → PyStr → ℚ) (threshold : ℚ) (e other : Entry) :
    Option (PyStr × ℚ) :=
  if normalized_key e = normalized_key other then some (txt "exact_key_batch", 1)
  else if truthyId e.heally_id && truthyId other.heally_id
      && decide (e.heally_id = other.heally_id) then some (txt "heally_id_batch", 1)
  else if threshold ≤ fuzzy_match_score smRatio e other then
    some (txt "fuzzy_batch", fuzzy_match_score smRatio e other)
  else none

/-- First seen record (in order) that matches, with its index, the rule
and the score. -/
def firstMatch (smRatio : PyStr → PyStr → ℚ) (threshold : ℚ) :
    List Entry → Entry → Option (Nat × Entry × PyStr × ℚ)
  | [], _ => none
  | o :: rest, e =>
    match match3 smRatio threshold e o with
    | some rs => some (0, o, rs.1, rs.2)
    | none => (firstMatch smRatio threshold rest e).map (fun r => (r.1 + 1, r.2))

/-- The promotion applied to both ends of a within-batch match: payload
duplicate = Yes, payload list_source = Both Lists, field
list_source = Both Lists. -/
def promote (e : Entry) : Entry :=
  { e with
    payload := pset (pset e.payload (txt "duplicate") (some (txt "Yes")))
      (txt "list_source") (some (txt "Both Lists"))
    list_source := txt "Both Lists" }

/-- cards/processing.py DataProcessor.deduplicate_within_batch, one step:
scan the previously seen records in order; on the first match promote
both records and stop; otherwise mark duplicate No unless already Yes;
the current record is then appended to the seen list. -/
def dedupStep (smRatio : PyStr → PyStr → ℚ) (threshold : ℚ)
    (st : List Entry × List DupReport) (e : Entry) : List Entry × List DupReport :=
  match firstMatch smRatio threshold st.1 e with
  | some r =>
    ((st.1.set r.1 (promote r.2.1)) ++ [promote e],
     st.2 ++ [⟨r.2.2.1, r.2.2.2, r.2.1, none⟩])
  | none =>
    (st.1 ++ [if isDupYes e then e else setDup e (txt "No")], st.2)

/-- cards/processing.py DataProcessor.deduplicate_within_batch: fold the
step over the entries in input order.  The first component of the result
is the processed entries (the source mutates them in place), the second
the batch duplicate reports. -/
def deduplicate_within_batch (smRatio : PyStr → PyStr → ℚ) (threshold : ℚ)
    (entries : List Entry) : List Entry × List DupReport :=
  entries.foldl (dedupStep smRatio threshold) ([], [])

/-!
BatchProcessor (cards/processing.py normalize_rows, process, export).
-/

/-- cards/processing.py normalize_rows, the validation-status step
(lines around 146 to 149 and 179): ok when no reason, attention
otherwise, and rejected with the added reason missing_core_fields when
the normalized name or the normalized address is empty; the stored
reason list is sorted(set(reasons)). -/
def rowStatus (reasons : List PyStr) (normalizedName addr : PyStr) : PyStr × List PyStr :=
  let st := if reasons = [] then txt "ok" else txt "attention"
  if normalizedName = [] ∨ addr = [] then
    (txt "rejected", dedupSort (reasons ++ [txt "missing_core_fields"]))
  else (st, dedupSort reasons)

/-- One input row after header mapping and permissive stringification
(normalize_rows lines 110 to 128): the extracted canonical fields plus
the string-typed raw values searched by extract_heally. -/
structure RawRow where
  name : PyStr
  address : PyStr
  city : PyStr
  state : PyStr
  zip : PyStr
  clinic : PyStr
  date : Option PyStr
  heally : Option PyStr
  rawValues : List PyStr
deriving DecidableEq, Repr

/-- The display zip of an entry (normalize_rows line 157): zip5-zip4 when
zip4 is truthy, else zip5. -/
def zipDisplay (z5 : PyStr) (z4 : Option PyStr) : PyStr :=
  match z4 with
  | some q => if q ≠ [] then joinDash (([z5, q]).filter (fun x => decide (x ≠ []))) else z5
  | none => z5

/-- cards/processing.py normalize_rows, one row: run the field
normalizers, combine the reasons, compute the status, and build the
entry together with its normalized payload.  parseDT is the external
strptime-and-timezone collaborator (parse_datetime followed by
format_datetime, returning the formatted text), zipDb the ZIP lookup
table. -/
def normalizeRow (parseDT : Option PyStr → Option PyStr × List PyStr)
    (zipDb : PyStr → Option (PyStr × PyStr)) (list_type : PyStr) (row : RawRow) : Entry :=
  let nm := normalize_name row.name
  let ar := validate_and_normalize_address zipDb row.address row.city row.state row.zip
  let he := extract_heally row.heally row.rawValues
  let dt := parseDT row.date
  let reasons := nm.2 ++ ar.reasons ++ he.2.2 ++ dt.2
  let stat := rowStatus reasons nm.1 ar.address
  let clinic := if row.clinic ≠ [] then pyTitle row.clinic else []
  let ls := if list_type = txt "new_visit" then txt "New Visit" else txt "Reprint"
  { name := nm.1
    clinic_name := clinic
    address := ar.address
    city := ar.city
    state := ar.state
    zip_code := zipDisplay ar.zip5 ar.zip4
    heally_link := he.1
    heally_id := he.2.1
    date_time := dt.1
    list_source := ls
    payload :=
      [(txt "name", some nm.1),
       (txt "clinic_name", some clinic),
       (txt "address", some ar.address),
       (txt "city", some ar.city),
       (txt "state", some ar.state),
       (txt "zip", some ar.zip5),
       (txt "zip4", ar.zip4),
       (txt "heally_link", some he.1),
       (txt "heally_id", he.2.1),
       (txt "date_time", some (formatDT dt.1)),
       (txt "list_source", some ls)]
    validation_status := stat.1
    uncertainty_reasons := stat.2 }

/-- cards/processing.py process lines 304 to 306: after both duplicate
passes, a record marked duplicate whose field list_source is not
Both Lists takes the payload value of list_source. -/
def reconcileSource (e : Entry) : Entry :=
  if isDupYes e && decide (e.list_source ≠ txt "Both Lists") then
    { e with list_source :=
        match pget e.payload (txt "list_source") with
        | some (some v) => v
        | _ => e.list_source }
  else e

/-- cards/processing.py DataProcessor.process, the in-memory part:
normalize both tables (new visits first), concatenate, run the
against-history pass then the within-batch pass, reconcile list_source.
The first component is the combined entries exactly as persisted, the
second the duplicate reports, history reports first. -/
def processEntries (parseDT : Option PyStr → Option PyStr × List PyStr)
    (zipDb : PyStr → Option (PyStr × PyStr)) (smRatio : PyStr → PyStr → ℚ)
    (threshold : ℚ) (hist : List (Entry × Option Nat))
    (newRows reRows : List RawRow) : List Entry × List DupReport :=
  let newE := newRows.map (normalizeRow parseDT zipDb (txt "new_visit"))
  let reE := reRows.map (normalizeRow parseDT zipDb (txt "reprint"))
  let combined := newE ++ reE
  let cross := detect_duplicates smRatio threshold hist combined
  let batch := deduplicate_within_batch smRatio threshold cross.2
  (batch.1.map reconcileSource, cross.1 ++ batch.2)

/-- The payload field names, in insertion order. -/
def payloadKeys (p : List (PyStr × Option PyStr)) : List PyStr := p.map (fun kv => kv.1)

/-- The field names of every persisted normalized payload, in insertion
order: the eleven keys written by normalize_rows plus the duplicate
marker added by duplicate detection. -/
def payloadFieldNames : List PyStr :=
  [txt "name", txt "clinic_name", txt "address", txt "city", txt "state", txt "zip",
   txt "zip4", txt "heally_link", txt "heally_id", txt "date_time", txt "list_source",
   txt "duplicate"]

/-- One row of the stamps export table. -/
structure StampsRow where
  name : PyStr
  address : PyStr
  city : PyStr
  state : PyStr
  zip : PyStr
deriving DecidableEq, Repr

/-- One row of the combined export table. -/
structure CombinedRow where
  name : PyStr
  clinic_name : PyStr
  address : PyStr
  city : PyStr
  state : PyStr
  zip_code : PyStr
  heally_link : PyStr
  date_time : PyStr
  list_source : PyStr
  duplicate : Option PyStr
deriving DecidableEq, Repr

def stampsRow (e : Entry) : StampsRow :=
  { name := e.name, address := e.address, city := e.city, state := e.state,
    zip := e.zip_code }

def combinedRow (e : Entry) : CombinedRow :=
  { name := e.name, clinic_name := e.clinic_name, address := e.address,
    city := e.city, state := e.state, zip_code := e.zip_code,
    heally_link := e.heally_link, date_time := formatDT e.date_time,
    list_source := e.list_source,
    duplicate :=
      match pget e.payload (txt "duplicate") with
      | some v => v
      | none => some (txt "No") }

/-- The export sort key (export lines 392 to 398): first name token and
last name token, both lower-cased, empty for an empty name.  The source
indexes split()[0] and split()[-1], which assumes a nonempty token list
for a nonempty name; the head and last defaults below are unreachable
under that assumption. -/
def exportKey (e : Entry) : PyStr × PyStr :=
  ((if e.name ≠ [] then lower ((pySplit e.name).headD []) else []),
   (if e.name ≠ [] then lower ((pySplit e.name).getLastD []) else []))

/-- Lexicographic order on the key pairs, the order Python uses on
tuples of strings. -/
def keyLt (a b : PyStr × PyStr) : Bool :=
  lexLt a.1 b.1 || (decide (a.1 = b.1) && lexLt a.2 b.2)

/-- Python sorted is a stable sort by key; this is modelled by sorting
the index-tagged list by key with index as the final tie break. -/
def exportLe (x y : Nat × Entry) : Bool :=
  keyLt (exportKey x.2) (exportKey y.2)
    || (decide (exportKey x.2 = exportKey y.2) && decide (x.1 ≤ y.1))

/-- The sort order as a decidable relation, total thanks to the index
component. -/
def exportRel (x y : Nat × Entry) : Prop := exportLe x y = true

instance : DecidableRel exportRel := fun x y => by
  unfold exportRel
  infer_instance

def exportOrder (entries : List Entry) : List Entry :=
  (List.insertionSort exportRel entries.enum).map (fun p => p.2)

/-- cards/processing.py DataProcessor.export, the emitted tables: both
are rendered from the same sorted entry list (export is a reserved word
in Lean, hence the name exportTables). -/
def exportTables (entries : List Entry) : List StampsRow × List CombinedRow :=
  let es := exportOrder entries
  (es.map stampsRow, es.map combinedRow)

/-!
Theorems.  First the library of facts about the string model, then one
theorem per claim.
-/

theorem toLowerN_toUpperN (c : Nat) : toLowerN (toUpperN c) = toLowerN c := by
  unfold toLowerN toUpperN
  split_ifs <;> omega

theorem toUpperN_toUpperN (c : Nat) : toUpperN (toUpperN c) = toUpperN c := by
  unfold toUpperN
  split_ifs <;> omega

theorem toLowerN_toLowerN (c : Nat) : toLowerN (toLowerN c) = toLowerN c := by
  unfold toLowerN
  split_ifs <;> omega

theorem isWs_toUpperN (c : Nat) : isWs (toUpperN c) = isWs c := by
  rw [Bool.eq_iff_iff]
  unfold isWs toUpperN
  split_ifs <;> simp only [Bool.or_eq_true, decide_eq_true_eq] <;> omega

theorem isWs_toLowerN (c : Nat) : isWs (toLowerN c) = isWs c := by
  rw [Bool.eq_iff_iff]
  unfold isWs toLowerN
  split_ifs <;> simp only [Bool.or_eq_true, decide_eq_true_eq] <;> omega

theorem isAlphaN_toUpperN (c : Nat) : isAlphaN (toUpperN c) = isAlphaN c := by
  rw [Bool.eq_iff_iff]
  unfold isAlphaN toUpperN
  split_ifs <;> simp only [Bool.or_eq_true, Bool.and_eq_true, decide_eq_true_eq] <;> omega

theorem isAlphaN_toLowerN (c : Nat) : isAlphaN (toLowerN c) = isAlphaN c := by
  rw [Bool.eq_iff_iff]
  unfold isAlphaN toLowerN
  split_ifs <;> simp only [Bool.or_eq_true, Bool.and_eq_true, decide_eq_true_eq] <;> omega

/-- The character transform of titleGo at flag prev. -/
def titleTf (prev : Bool) (c : Nat) : Nat :=
  if isAlphaN c = true then (if prev = true then toLowerN c else toUpperN c) else c

theorem titleGo_cons (prev : Bool) (c : Nat) (t : PyStr) :
    titleGo prev (c :: t) = titleTf prev c :: titleGo (isAlphaN c) t := rfl

theorem isAlphaN_titleTf (prev : Bool) (c : Nat) : isAlphaN (titleTf prev c) = isAlphaN c := by
  unfold titleTf
  by_cases ha : isAlphaN c = true
  · cases prev <;> simp [ha, isAlphaN_toUpperN, isAlphaN_toLowerN]
  · simp [ha]

theorem isWs_titleTf (prev : Bool) (c : Nat) : isWs (titleTf prev c) = isWs c := by
  unfold titleTf
  by_cases ha : isAlphaN c = true
  · cases prev <;> simp [ha, isWs_toUpperN, isWs_toLowerN]
  · simp [ha]

theorem toLowerN_titleTf (prev : Bool) (c : Nat) : toLowerN (titleTf prev c) = toLowerN c := by
  unfold titleTf
  by_cases ha : isAlphaN c = true
  · cases prev <;> simp [ha, toLowerN_toUpperN, toLowerN_toLowerN]
  · simp [ha]

theorem titleTf_titleTf (prev : Bool) (c : Nat) : titleTf prev (titleTf prev c) = titleTf prev c := by
  unfold titleTf
  by_cases ha : isAlphaN c = true
  · cases prev <;>
      simp [ha, isAlphaN_toUpperN, isAlphaN_toLowerN, toLowerN_toLowerN, toUpperN_toUpperN]
  · simp [ha]

theorem lower_titleGo (prev : Bool) (s : PyStr) : lower (titleGo prev s) = lower s := by
  induction s generalizing prev with
  | nil => rfl
  | cons c t ih =>
    rw [titleGo_cons]
    show toLowerN (titleTf prev c) :: lower (titleGo (isAlphaN c) t)
      = toLowerN c :: lower t
    rw [toLowerN_titleTf, ih (isAlphaN c)]

theorem titleGo_idem (prev : Bool) (s : PyStr) :
    titleGo prev (titleGo prev s) = titleGo prev s := by
  induction s generalizing prev with
  | nil => rfl
  | cons c t ih =>
    rw [titleGo_cons, titleGo_cons, isAlphaN_titleTf, titleTf_titleTf, ih (isAlphaN c)]

theorem pyTitle_idem (s : PyStr) : pyTitle (pyTitle s) = pyTitle s := titleGo_idem false s

theorem lower_pyTitle (s : PyStr) : lower (pyTitle s) = lower s := lower_titleGo false s

theorem titleGo_length (prev : Bool) (s : PyStr) : (titleGo prev s).length = s.length := by
  induction s generalizing prev with
  | nil => rfl
  | cons c t ih => rw [titleGo_cons]; simp [ih]

theorem pyTitle_length (s : PyStr) : (pyTitle s).length = s.length := titleGo_length false s

theorem pyTitle_ne_nil {s : PyStr} (h : s ≠ []) : pyTitle s ≠ [] := by
  intro hc
  apply h
  have hl := pyTitle_length s
  rw [hc] at hl
  exact List.length_eq_zero.mp hl.symm

theorem titleGo_ws_free (prev : Bool) (s : PyStr) (h : ∀ c ∈ s, isWs c = false) :
    ∀ c ∈ titleGo prev s, isWs c = false := by
  induction s generalizing prev with
  | nil => intro c hc; cases hc
  | cons d t ih =>
    intro c hc
    rw [titleGo_cons] at hc
    rcases List.mem_cons.mp hc with h1 | h1
    · rw [h1, isWs_titleTf]
      exact h d (List.mem_cons_self _ _)
    · exact ih (isAlphaN d) (fun e he => h e (List.mem_cons_of_mem _ he)) c h1

theorem pyTitle_ws_free (s : PyStr) (h : ∀ c ∈ s, isWs c = false) :
    ∀ c ∈ pyTitle s, isWs c = false := titleGo_ws_free false s h

theorem stripLeft_head_not_ws (s : PyStr) (c : Nat) (h : (stripLeft s).head? = some c) :
    isWs c = false := by
  unfold stripLeft at h
  have := List.head?_dropWhile_not (fun c => isWs c) s
  rw [h] at this
  exact this

theorem stripRight_prefix (s : PyStr) : stripRight s <+: s := by
  unfold stripRight
  have h1 : (s.reverse.dropWhile (fun c => isWs c)) <:+ s.reverse :=
    List.dropWhile_suffix _
  exact List.reverse_suffix.mp (by rw [List.reverse_reverse]; exact h1)

theorem stripRight_getLast_not_ws (s : PyStr) (c : Nat)
    (h : (stripRight s).getLast? = some c) : isWs c = false := by
  unfold stripRight at h
  rw [List.getLast?_reverse] at h
  have := List.head?_dropWhile_not (fun c => isWs c) s.reverse
  rw [h] at this
  exact this

theorem stripRight_head (s : PyStr) (c : Nat) (h : (stripRight s).head? = some c) :
    s.head? = some c := by
  rcases stripRight_prefix s with ⟨t, ht⟩
  rw [← ht, List.head?_append, h]
  rfl

theorem strip_head_not_ws (s : PyStr) (c : Nat) (h : (strip s).head? = some c) :
    isWs c = false := by
  unfold strip at h
  exact stripLeft_head_not_ws s c (stripRight_head _ c h)

theorem strip_getLast_not_ws (s : PyStr) (c : Nat) (h : (strip s).getLast? = some c) :
    isWs c = false := by
  unfold strip at h
  exact stripRight_getLast_not_ws _ c h

theorem dropWhile_eq_self_of_head (p : Nat → Bool) (s : PyStr)
    (h : ∀ c, s.head? = some c → p c = false) : s.dropWhile p = s := by
  cases s with
  | nil => rfl
  | cons a t =>
    rw [List.dropWhile_cons]
    simp [h a rfl]

/-- A list whose first and last characters are not whitespace strips to
itself. -/
theorem strip_eq_self (s : PyStr)
    (hh : ∀ c, s.head? = some c → isWs c = false)
    (hl : ∀ c, s.getLast? = some c → isWs c = false) : strip s = s := by
  unfold strip stripLeft stripRight
  rw [dropWhile_eq_self_of_head _ s hh]
  rw [dropWhile_eq_self_of_head _ s.reverse (fun c hc => by
    rw [List.head?_reverse] at hc
    exact hl c hc)]
  exact List.reverse_reverse s

theorem strip_idem (s : PyStr) : strip (strip s) = strip s := by
  apply strip_eq_self
  · exact strip_head_not_ws s
  · exact strip_getLast_not_ws s

theorem joinSpace_nil : joinSpace [] = [] := rfl

theorem joinSpace_single (a : PyStr) : joinSpace [a] = a := by
  simp [joinSpace, List.intercalate]

theorem joinSpace_cons₂ (a b : PyStr) (t : List PyStr) :
    joinSpace (a :: b :: t) = a ++ 32 :: joinSpace (b :: t) := by
  simp [joinSpace, List.intercalate]

theorem pySplit_nil : pySplit [] = [] := rfl

theorem pySplitGo_acc (s : PyStr) : ∀ acc : PyStr, acc ≠ [] →
    pySplitGo acc s
      = (acc.reverse ++ s.takeWhile (fun d => !isWs d))
        :: pySplit (s.dropWhile (fun d => !isWs d)) := by
  induction s with
  | nil =>
    intro acc h
    simp [pySplitGo, h, pySplit, pySplitGo]
  | cons c t ih =>
    intro acc h
    by_cases hw : isWs c
    · simp only [pySplitGo, hw, if_true, if_neg h, List.takeWhile_cons, Bool.not_true,
        Bool.false_eq_true, if_false, List.append_nil, List.dropWhile_cons]
      show _ = (acc.reverse) :: pySplit (c :: t)
      unfold pySplit
      simp [pySplitGo, hw]
    · simp only [pySplitGo, hw, Bool.false_eq_true, if_false, List.takeWhile_cons,
        Bool.not_false, if_true, List.dropWhile_cons]
      rw [ih (c :: acc) (by simp)]
      simp

theorem pySplit_cons (c : Nat) (t : PyStr) :
    pySplit (c :: t)
      = if isWs c then pySplit t
        else (c :: t.takeWhile (fun d => !isWs d)) :: pySplit (t.dropWhile (fun d => !isWs d)) := by
  by_cases hw : isWs c
  · rw [if_pos hw]
    unfold pySplit
    simp [pySplitGo, hw]
  · rw [if_neg hw]
    show pySplitGo [] (c :: t) = _
    rw [show pySplitGo [] (c :: t) = pySplitGo [c] t by simp [pySplitGo, hw]]
    rw [pySplitGo_acc t [c] (by simp)]
    rfl

theorem pySplit_sound_aux :
    ∀ (n : Nat) (s : PyStr), s.length ≤ n →
      ∀ t ∈ pySplit s, t ≠ [] ∧ ∀ c ∈ t, isWs c = false := by
  intro n
  induction n with
  | zero =>
    intro s hs t ht
    have : s = [] := List.length_eq_zero.mp (Nat.le_zero.mp hs)
    subst this
    rw [pySplit_nil] at ht
    cases ht
  | succ n ih =>
    intro s hs t ht
    cases s with
    | nil => rw [pySplit_nil] at ht; cases ht
    | cons c r =>
      rw [pySplit_cons] at ht
      simp only [List.length_cons, Nat.succ_le_succ_iff] at hs
      by_cases hws : isWs c
      · rw [if_pos hws] at ht
        exact ih r hs t ht
      · rw [if_neg hws] at ht
        rcases List.mem_cons.mp ht with h1 | h1
        · subst h1
          refine ⟨by simp, ?_⟩
          intro d hd
          rcases List.mem_cons.mp hd with h2 | h2
          · rw [h2]; exact Bool.of_not_eq_true hws
          · have h3 := List.mem_takeWhile_imp h2
            simpa using h3
        · have hlen : (r.dropWhile (fun d => !isWs d)).length ≤ n :=
            Nat.le_trans ((List.dropWhile_sublist _).length_le) hs
          exact ih _ hlen t h1

/-- Every token produced by pySplit is nonempty and whitespace free. -/
theorem pySplit_sound (s : PyStr) :
    ∀ t ∈ pySplit s, t ≠ [] ∧ ∀ c ∈ t, isWs c = false :=
  pySplit_sound_aux s.length s (Nat.le_refl _)

theorem takeWhile_all_cons_stop (p : Nat → Bool) (xs : PyStr) (y : Nat) (ys : PyStr)
    (hall : ∀ a ∈ xs, p a = true) (hy : p y = false) :
    (xs ++ y :: ys).takeWhile p = xs := by
  rw [List.takeWhile_append_of_pos hall, List.takeWhile_cons, hy]
  simp

theorem dropWhile_all_cons_stop (p : Nat → Bool) (xs : PyStr) (y : Nat) (ys : PyStr)
    (hall : ∀ a ∈ xs, p a = true) (hy : p y = false) :
    (xs ++ y :: ys).dropWhile p = y :: ys := by
  rw [List.dropWhile_append_of_pos hall, List.dropWhile_cons, hy]
  simp

/-- A nonempty whitespace-free string splits to the single token itself. -/
theorem pySplit_single (s : PyStr) (hne : s ≠ []) (hws : ∀ c ∈ s, isWs c = false) :
    pySplit s = [s] := by
  cases s with
  | nil => exact absurd rfl hne
  | cons c t =>
    have hc : isWs c = false := hws c (List.mem_cons_self _ _)
    have hall : ∀ a ∈ t, (fun d => !isWs d) a = true := by
      intro a ha
      simp [hws a (List.mem_cons_of_mem _ ha)]
    rw [pySplit_cons, if_neg (by simp [hc])]
    have h1 : t.takeWhile (fun d => !isWs d) = t := by
      have h := @List.takeWhile_append_of_pos _ _ t ([] : PyStr) hall
      simpa using h
    have h2 : t.dropWhile (fun d => !isWs d) = [] := by
      have h := @List.dropWhile_append_of_pos _ _ t ([] : PyStr) hall
      simpa using h
    rw [h1, h2, pySplit_nil]

/-- Splitting the space-joined list of nonempty whitespace-free tokens
recovers the tokens. -/
theorem pySplit_joinSpace (ts : List PyStr)
    (h : ∀ t ∈ ts, t ≠ [] ∧ ∀ c ∈ t, isWs c = false) :
    pySplit (joinSpace ts) = ts := by
  induction ts with
  | nil => exact pySplit_nil
  | cons a rest ih =>
    rcases h a (List.mem_cons_self _ _) with ⟨hane, haws⟩
    cases rest with
    | nil =>
      rw [joinSpace_single]
      exact pySplit_single a hane haws
    | cons b rest2 =>
      rw [joinSpace_cons₂]
      cases a with
      | nil => exact absurd rfl hane
      | cons c t =>
        have hc : isWs c = false := haws c (List.mem_cons_self _ _)
        have hall : ∀ d ∈ t, (fun d => !isWs d) d = true := by
          intro d hd
          simp [haws d (List.mem_cons_of_mem _ hd)]
        have hsp : isWs 32 = true := by decide
        rw [List.cons_append, pySplit_cons, if_neg (by simp [hc])]
        rw [takeWhile_all_cons_stop _ t 32 _ hall (by decide),
            dropWhile_all_cons_stop _ t 32 _ hall (by decide)]
        rw [pySplit_cons, if_pos hsp]
        rw [ih (fun t ht => h t (List.mem_cons_of_mem _ ht))]

theorem joinSpace_head (a : PyStr) (rest : List PyStr) (ha : a ≠ []) :
    (joinSpace (a :: rest)).head? = a.head? := by
  cases rest with
  | nil => rw [joinSpace_single]
  | cons b r =>
    rw [joinSpace_cons₂, List.head?_append]
    cases a with
    | nil => exact absurd rfl ha
    | cons c t => rfl

theorem joinSpace_ne_nil (a : PyStr) (rest : List PyStr) (ha : a ≠ []) :
    joinSpace (a :: rest) ≠ [] := by
  cases rest with
  | nil => rw [joinSpace_single]; exact ha
  | cons b r =>
    rw [joinSpace_cons₂]
    intro hc
    rcases List.append_eq_nil.mp hc with ⟨_, h2⟩
    cases h2

/-- The last character of a space-join of nonempty tokens is the last
character of the last token. -/
theorem joinSpace_getLast_mem (ts : List PyStr) (hne : ts ≠ [])
    (h : ∀ t ∈ ts, t ≠ []) :
    ∃ t ∈ ts, (joinSpace ts).getLast? = t.getLast? := by
  induction ts with
  | nil => exact absurd rfl hne
  | cons a rest ih =>
    cases rest with
    | nil =>
      refine ⟨a, List.mem_cons_self _ _, ?_⟩
      rw [joinSpace_single]
    | cons b r =>
      rcases ih (by simp) (fun t ht => h t (List.mem_cons_of_mem _ ht)) with ⟨t, ht, hgl⟩
      refine ⟨t, List.mem_cons_of_mem _ ht, ?_⟩
      rw [joinSpace_cons₂, List.getLast?_append]
      have hbne : joinSpace (b :: r) ≠ [] :=
        joinSpace_ne_nil b r (h b (List.mem_cons_of_mem _ (List.mem_cons_self _ _)))
      have : (32 :: joinSpace (b :: r)).getLast? = (joinSpace (b :: r)).getLast? := by
        rw [show (32 :: joinSpace (b :: r)) = [32] ++ joinSpace (b :: r) from rfl,
          List.getLast?_append]
        cases hj : joinSpace (b :: r) with
        | nil => exact absurd hj hbne
        | cons x xs => simp [List.getLast?_cons]
      rw [this, hgl]
      cases hj : t.getLast? with
      | none =>
        exfalso
        exact (h t (List.mem_cons_of_mem _ ht)) (List.getLast?_eq_none_iff.mp hj)
      | some x => rfl

theorem lexLt_irrefl (a : PyStr) : lexLt a a = false := by
  induction a with
  | nil => rfl
  | cons c t ih => simp [lexLt, ih]

theorem lexLt_trans : ∀ a b c : PyStr, lexLt a b = true → lexLt b c = true → lexLt a c = true := by
  intro a
  induction a with
  | nil =>
    intro b c hab hbc
    cases b with
    | nil => cases hab
    | cons x s =>
      cases c with
      | nil => cases hbc
      | cons y r => rfl
  | cons x s ih =>
    intro b c hab hbc
    cases b with
    | nil => cases hab
    | cons y r =>
      cases c with
      | nil => cases hbc
      | cons z q =>
        simp only [lexLt] at hab hbc ⊢
        split_ifs at hab hbc ⊢ with h1 h2 h3 h4 h5 h6 <;> try rfl
        all_goals first
          | omega
          | (exact ih r q hab hbc)
theorem lexLt_total (a : PyStr) : ∀ b : PyStr, lexLt a b = true ∨ a = b ∨ lexLt b a = true := by
  induction a with
  | nil =>
    intro b
    cases b with
    | nil => exact Or.inr (Or.inl rfl)
    | cons y r => exact Or.inl rfl
  | cons x s ih =>
    intro b
    cases b with
    | nil => exact Or.inr (Or.inr rfl)
    | cons y r =>
      rcases Nat.lt_trichotomy x y with h | h | h
      · left; simp [lexLt, h]
      · subst h
        rcases ih r with h2 | h2 | h2
        · left; simp [lexLt, h2]
        · exact Or.inr (Or.inl (by rw [h2]))
        · right; right; simp [lexLt, h2]
      · right; right; simp [lexLt, h]

instance : IsTotal PyStr lexLe :=
  ⟨by
    intro a b
    rcases lexLt_total a b with h | h | h
    · exact Or.inl (Or.inl h)
    · exact Or.inl (Or.inr h)
    · exact Or.inr (Or.inl h)⟩

instance : IsTrans PyStr lexLe :=
  ⟨by
    intro a b c hab hbc
    rcases hab with hab | hab
    · rcases hbc with hbc | hbc
      · exact Or.inl (lexLt_trans a b c hab hbc)
      · subst hbc; exact Or.inl hab
    · subst hab; exact hbc⟩

theorem mem_dedupSort (a : PyStr) (l : List PyStr) : a ∈ dedupSort l ↔ a ∈ l := by
  unfold dedupSort
  rw [List.mem_insertionSort, List.mem_dedup]

theorem dedupSort_eq_nil (l : List PyStr) : dedupSort l = [] ↔ l = [] := by
  constructor
  · intro h
    have hp := List.perm_insertionSort lexLe l.dedup
    unfold dedupSort at h
    rw [h] at hp
    exact (List.dedup_eq_nil l).mp hp.symm.eq_nil
  · intro h
    subst h
    rfl

theorem dedupSort_nodup (l : List PyStr) : (dedupSort l).Nodup := by
  unfold dedupSort
  exact ((List.perm_insertionSort lexLe l.dedup).nodup_iff).mpr (List.nodup_dedup l)

theorem dedupSort_sorted (l : List PyStr) : (dedupSort l).Pairwise lexLe :=
  List.sorted_insertionSort lexLe l.dedup

/-- The reason sets the pipeline stores are strictly increasing:
sorted and duplicate free. -/
theorem dedupSort_strict (l : List PyStr) :
    (dedupSort l).Pairwise (fun a b => lexLt a b = true) := by
  have h1 := dedupSort_sorted l
  have h2 := dedupSort_nodup l
  have h3 := List.Pairwise.and h1 h2
  apply h3.imp
  intro a b hab
  rcases hab.1 with h | h
  · exact h
  · exact absurd h hab.2

theorem isWs_of_digit (c : Nat) (h : isDigitN c = true) : isWs c = false := by
  unfold isDigitN at h
  unfold isWs
  simp only [Bool.and_eq_true, decide_eq_true_eq] at h
  simp only [Bool.or_eq_false_iff, decide_eq_false_iff_not]
  omega

theorem zipMatch_bare (z5 : PyStr) (h5 : z5.length = 5)
    (hd5 : ∀ c ∈ z5, isDigitN c = true) : zipMatch z5 = some (z5, none) := by
  unfold zipMatch
  rw [List.take_of_length_le (by omega), List.drop_of_length_le (by omega)]
  rw [if_pos ⟨h5, by simpa [List.all_eq_true] using hd5⟩, if_pos (Or.inl rfl)]

theorem zipMatch_sep (z5 z4 : PyStr) (sep : Nat) (h5 : z5.length = 5)
    (hd5 : ∀ c ∈ z5, isDigitN c = true) (h4 : z4.length = 4)
    (hd4 : ∀ c ∈ z4, isDigitN c = true) (hsep : sep = 45 ∨ sep = 32) :
    zipMatch (z5 ++ sep :: z4) = some (z5, some z4) := by
  have hr2 : zipRest2 (z5 ++ sep :: z4) = z4 := by
    unfold zipRest2
    rw [List.drop_left' h5]
    rw [if_pos (by rcases hsep with h | h <;> simp [h])]
    rfl
  unfold zipMatch
  rw [List.take_left' h5, List.drop_left' h5, hr2]
  rw [if_pos ⟨h5, by simpa [List.all_eq_true] using hd5⟩]
  rw [if_neg (by rcases hsep with h | h <;> simp [h])]
  rw [List.take_of_length_le (by omega)]
  rw [if_pos ⟨h4, by simpa [List.all_eq_true] using hd4,
    Or.inl (List.drop_of_length_le (by omega))⟩]

theorem zipMatch_nosep (z5 z4 : PyStr) (h5 : z5.length = 5)
    (hd5 : ∀ c ∈ z5, isDigitN c = true) (h4 : z4.length = 4)
    (hd4 : ∀ c ∈ z4, isDigitN c = true) :
    zipMatch (z5 ++ z4) = some (z5, some z4) := by
  cases z4 with
  | nil => cases h4
  | cons c q =>
    have hcd : isDigitN c = true := hd4 c (List.mem_cons_self _ _)
    have hc45 : c ≠ 45 := by intro hc; rw [hc] at hcd; cases hcd
    have hc32 : c ≠ 32 := by intro hc; rw [hc] at hcd; cases hcd
    have hc10 : c ≠ 10 := by intro hc; rw [hc] at hcd; cases hcd
    have hr2 : zipRest2 (z5 ++ c :: q) = c :: q := by
      unfold zipRest2
      rw [List.drop_left' h5]
      rw [if_neg (by simp [hc45, hc32])]
    unfold zipMatch
    rw [List.take_left' h5, List.drop_left' h5, hr2]
    rw [if_pos ⟨h5, by simpa [List.all_eq_true] using hd5⟩]
    rw [if_neg (by simp [hc10])]
    rw [List.take_of_length_le (by omega)]
    rw [if_pos ⟨h4, by simpa [List.all_eq_true] using hd4,
      Or.inl (List.drop_of_length_le (by omega))⟩]

theorem zipMatch_sound (s z5 : PyStr) (z4 : Option PyStr)
    (h : zipMatch s = some (z5, z4)) :
    z5.length = 5 ∧ (∀ c ∈ z5, isDigitN c = true)
      ∧ ∀ q, z4 = some q → q.length = 4 ∧ ∀ c ∈ q, isDigitN c = true := by
  unfold zipMatch at h
  split_ifs at h with h1 h2 h3
  · rcases h1 with ⟨hl, hall⟩
    rw [Option.some_inj] at h
    rw [Prod.mk.injEq] at h
    rcases h with ⟨ha, hb⟩
    subst ha
    refine ⟨hl, by simpa [List.all_eq_true] using hall, ?_⟩
    intro q hq
    rw [← hb] at hq
    cases hq
  · rcases h1 with ⟨hl, hall⟩
    rcases h3 with ⟨hl4, hall4, _⟩
    rw [Option.some_inj] at h
    rw [Prod.mk.injEq] at h
    rcases h with ⟨ha, hb⟩
    subst ha
    refine ⟨hl, by simpa [List.all_eq_true] using hall, ?_⟩
    intro q hq
    rw [← hb] at hq
    rw [Option.some_inj] at hq
    subst hq
    exact ⟨hl4, by simpa [List.all_eq_true] using hall4⟩

/-- C6: normalize_zip returns (None, None, (missing_zip,)) for the empty
input; (None, None, (invalid_zip,)) for every nonempty input whose
stripped text does not match the ZIP pattern; and for every matching
input the 5-digit part, the optional 4-digit part and no reasons.  The
fourth and fifth conjuncts characterise the pattern as five digits
optionally followed by a dash, a space or nothing plus four digits; the
concrete case 94107-1234 parses to (94107, 1234, ()). -/
theorem c6_normalize_zip :
    normalize_zip [] = (none, none, [txt "missing_zip"])
    ∧ (∀ s : PyStr, s ≠ [] → zipMatch (strip s) = none →
        normalize_zip s = (none, none, [txt "invalid_zip"]))
    ∧ (∀ (s z5 : PyStr) (z4 : Option PyStr), s ≠ [] →
        zipMatch (strip s) = some (z5, z4) → normalize_zip s = (some z5, z4, []))
    ∧ (∀ (z5 z4 : PyStr), z5.length = 5 → (∀ c ∈ z5, isDigitN c = true) →
        z4.length = 4 → (∀ c ∈ z4, isDigitN c = true) →
        zipMatch (z5 ++ 45 :: z4) = some (z5, some z4)
          ∧ zipMatch (z5 ++ 32 :: z4) = some (z5, some z4)
          ∧ zipMatch (z5 ++ z4) = some (z5, some z4)
          ∧ zipMatch z5 = some (z5, none))
    ∧ (∀ (s z5 : PyStr) (z4 : Option PyStr), zipMatch s = some (z5, z4) →
        z5.length = 5 ∧ (∀ c ∈ z5, isDigitN c = true)
          ∧ ∀ q, z4 = some q → q.length = 4 ∧ ∀ c ∈ q, isDigitN c = true)
    ∧ normalize_zip (txt "94107-1234") = (some (txt "94107"), some (txt "1234"), []) := by
  refine ⟨rfl, ?_, ?_, ?_, zipMatch_sound, by decide⟩
  · intro s hs hm
    unfold normalize_zip
    rw [if_neg hs, hm]
  · intro s z5 z4 hs hm
    unfold normalize_zip
    rw [if_neg hs, hm]
  · intro z5 z4 h5 hd5 h4 hd4
    exact ⟨zipMatch_sep z5 z4 45 h5 hd5 h4 hd4 (Or.inl rfl),
      zipMatch_sep z5 z4 32 h5 hd5 h4 hd4 (Or.inr rfl),
      zipMatch_nosep z5 z4 h5 hd5 h4 hd4, zipMatch_bare z5 h5 hd5⟩

/-- Witness for C6 at concrete inputs. -/
theorem c6_witness :
    normalize_zip (txt "bad") = (none, none, [txt "invalid_zip"])
      ∧ normalize_zip (txt "94107 1234") = (some (txt "94107"), some (txt "1234"), []) := by
  have h := c6_normalize_zip
  exact ⟨h.2.1 (txt "bad") (by decide) (by decide),
    h.2.2.1 (txt "94107 1234") (txt "94107") (some (txt "1234")) (by decide) (by decide)⟩

theorem joinSpace_two_ne_nil (a : PyStr) (l : List PyStr) (hl : l ≠ []) :
    joinSpace (a :: l) ≠ [] := by
  cases l with
  | nil => exact absurd rfl hl
  | cons b t =>
    rw [joinSpace_cons₂]
    intro hc
    rcases List.append_eq_nil.mp hc with ⟨_, h2⟩
    cases h2

/-- C7: normalize_name maps blank input to the empty name with reason
missing_name; an input matching the Last, First[, Middle...] pattern is
reordered to First [Middle...] Last with each part title-cased and
reason name_flipped; any other input is the title-cased whitespace
tokens with no reason.  Concretely, Smith, John becomes John Smith with
name_flipped, and John Smith is unchanged with no reason. -/
theorem c7_normalize_name :
    (∀ s : PyStr, strip s = [] → normalize_name s = ([], [txt "missing_name"]))
    ∧ (∀ (s lastPart firstPart : PyStr) (mid : Option PyStr),
        nameCommaMatch (strip s) = some (lastPart, firstPart, mid) →
        normalize_name s
          = (joinSpace ([pyTitle firstPart]
              ++ (match mid with
                  | some m => if m = [] then [] else [joinSpace ((pySplit m).map pyTitle)]
                  | none => [])
              ++ [pyTitle lastPart]), [txt "name_flipped"]))
    ∧ (∀ s : PyStr, strip s ≠ [] → nameCommaMatch (strip s) = none →
        normalize_name s = (joinSpace ((pySplit (strip s)).map pyTitle), []))
    ∧ normalize_name (txt "Smith, John") = (txt "John Smith", [txt "name_flipped"])
    ∧ normalize_name (txt "John Smith") = (txt "John Smith", []) := by
  refine ⟨?_, ?_, ?_, by decide, by decide⟩
  · intro s hs
    unfold normalize_name
    rw [if_pos hs]
  · intro s lastPart firstPart mid hm
    have hne : strip s ≠ [] := by
      intro hc
      rw [hc] at hm
      cases hm
    unfold normalize_name
    rw [if_neg hne, hm]
  · intro s hne hm
    unfold normalize_name
    rw [if_neg hne, hm]

/-- Witness for C7 at concrete inputs. -/
theorem c7_witness :
    normalize_name (txt " ") = ([], [txt "missing_name"])
      ∧ normalize_name (txt "Smith, John, Paul") = (txt "John Paul Smith", [txt "name_flipped"]) := by
  have h := c7_normalize_name
  refine ⟨h.1 (txt " ") (by decide), ?_⟩
  have h2 := h.2.1 (txt "Smith, John, Paul") (txt "Smith") (txt "John") (some (txt "Paul"))
    (by decide)
  rw [h2]
  decide

/-- C10: the normalized name is empty exactly when the input is blank
(empty after stripping), and exactly then the reason list is
[missing_name]; every non-blank name normalizes to a nonempty name. -/
theorem c10_name_empty_iff (s : PyStr) :
    ((normalize_name s).1 = [] ↔ strip s = [])
      ∧ ((normalize_name s).2 = [txt "missing_name"] ↔ strip s = []) := by
  by_cases hs : strip s = []
  · unfold normalize_name
    rw [if_pos hs]
    exact ⟨⟨fun _ => hs, fun _ => rfl⟩, ⟨fun _ => hs, fun _ => rfl⟩⟩
  · unfold normalize_name
    rw [if_neg hs]
    cases hm : nameCommaMatch (strip s) with
    | some r =>
      rcases r with ⟨lastPart, firstPart, mid⟩
      constructor
      · simp only [iff_false_intro hs, iff_false]
        intro hc
        exact joinSpace_two_ne_nil _ _ (by
          intro h0
          rcases List.append_eq_nil.mp h0 with ⟨_, h2⟩
          cases h2) hc
      · simp only [iff_false_intro hs, iff_false]
        intro hc
        have : txt "name_flipped" = txt "missing_name" := by
          have := List.cons.injEq (txt "name_flipped") [] (txt "missing_name") [] ▸ hc
          injection hc
        exact absurd this (by decide)
    | none =>
      constructor
      · simp only [iff_false_intro hs, iff_false]
        cases hstrip : strip s with
        | nil => exact absurd hstrip hs
        | cons c t =>
          have hcw : isWs c = false := by
            apply strip_head_not_ws s
            rw [hstrip]
            rfl
          rw [pySplit_cons, if_neg (by simp [hcw])]
          intro hc
          exact joinSpace_ne_nil _ _ (pyTitle_ne_nil (by simp)) hc
      · simp only [iff_false_intro hs, iff_false]
        intro hc
        cases hc

/-- C1: for every normalized row, validation_status is rejected exactly
when the normalized name or normalized address is empty (and then
missing_core_fields is among the stored reasons); attention exactly when
the stored reason list is nonempty while both core fields are nonempty;
ok exactly when the stored reason list is empty.  rowStatus is the
status computation of normalize_rows, applied to the combined reasons of
the field normalizers and used verbatim by normalizeRow. -/
theorem c1_validation_status (reasons : List PyStr) (nm addr : PyStr) :
    ((rowStatus reasons nm addr).1 = txt "rejected" ↔ (nm = [] ∨ addr = []))
    ∧ ((nm = [] ∨ addr = []) → txt "missing_core_fields" ∈ (rowStatus reasons nm addr).2)
    ∧ ((rowStatus reasons nm addr).1 = txt "attention"
        ↔ ((rowStatus reasons nm addr).2 ≠ [] ∧ nm ≠ [] ∧ addr ≠ []))
    ∧ ((rowStatus reasons nm addr).1 = txt "ok" ↔ (rowStatus reasons nm addr).2 = []) := by
  unfold rowStatus
  by_cases hcore : nm = [] ∨ addr = []
  · rw [if_pos hcore]
    refine ⟨⟨fun _ => hcore, fun _ => rfl⟩, ?_, ?_, ?_⟩
    · intro _
      exact (mem_dedupSort _ _).mpr (List.mem_append_right _ (List.mem_singleton.mpr rfl))
    · constructor
      · intro hc
        have hc2 : txt "rejected" = txt "attention" := hc
        exact absurd hc2 (by decide)
      · intro ⟨_, hnm, haddr⟩
        rcases hcore with h | h
        · exact absurd h hnm
        · exact absurd h haddr
    · constructor
      · intro hc
        have hc2 : txt "rejected" = txt "ok" := hc
        exact absurd hc2 (by decide)
      · intro hc
        rw [dedupSort_eq_nil] at hc
        rcases List.append_eq_nil.mp hc with ⟨_, h2⟩
        cases h2
  · rw [if_neg hcore]
    push_neg at hcore
    by_cases hr : reasons = []
    · subst hr
      rw [if_pos rfl]
      refine ⟨?_, fun h => absurd h (by simp [hcore.1, hcore.2]), ?_, ?_⟩
      · constructor
        · intro hc
          have hc2 : txt "ok" = txt "rejected" := hc
          exact absurd hc2 (by decide)
        · intro h
          rcases h with h | h
          · exact absurd h hcore.1
          · exact absurd h hcore.2
      · constructor
        · intro hc
          have hc2 : txt "ok" = txt "attention" := hc
          exact absurd hc2 (by decide)
        · intro ⟨h1, _⟩
          exact absurd rfl h1
      · exact ⟨fun _ => rfl, fun _ => rfl⟩
    · rw [if_neg hr]
      refine ⟨?_, fun h => absurd h (by simp [hcore.1, hcore.2]), ?_, ?_⟩
      · constructor
        · intro hc
          have hc2 : txt "attention" = txt "rejected" := hc
          exact absurd hc2 (by decide)
        · intro h
          rcases h with h | h
          · exact absurd h hcore.1
          · exact absurd h hcore.2
      · constructor
        · intro _
          refine ⟨?_, hcore.1, hcore.2⟩
          intro hc
          exact hr ((dedupSort_eq_nil reasons).mp hc)
        · intro _; rfl
      · constructor
        · intro hc
          have hc2 : txt "attention" = txt "ok" := hc
          exact absurd hc2 (by decide)
        · intro hc
          exact absurd ((dedupSort_eq_nil reasons).mp hc) hr

/-- Witness for C1 at concrete inputs. -/
theorem c1_witness :
    txt "missing_core_fields" ∈ (rowStatus [txt "invalid_zip"] [] (txt "1 Main")).2
      ∧ (rowStatus [] (txt "John") (txt "Main")).1 = txt "ok" := by
  refine ⟨(c1_validation_status [txt "invalid_zip"] [] (txt "1 Main")).2.1 (Or.inl rfl), ?_⟩
  exact ((c1_validation_status [] (txt "John") (txt "Main")).2.2.2).mpr (by decide)

theorem lookupA_mem : ∀ (l : List (PyStr × PyStr)) (x v : PyStr),
    lookupA l x = some v → (x, v) ∈ l := by
  intro l
  induction l with
  | nil => intro x v h; cases h
  | cons p t ih =>
    intro x v h
    rcases p with ⟨k, w⟩
    unfold lookupA at h
    split_ifs at h with hk
    · rw [Option.some_inj] at h
      subst hk
      subst h
      exact List.mem_cons_self _ _
    · exact List.mem_cons_of_mem _ (ih x v h)

theorem stateAbbrevs_val_ne_nil : ∀ p ∈ stateAbbrevs, p.2 ≠ [] := by decide

theorem upper_ne_nil {s : PyStr} (h : s ≠ []) : upper s ≠ [] := by
  intro hc
  exact h (List.map_eq_nil_iff.mp hc)

theorem normalize_state_fst_ne_nil (s : PyStr) (h : strip s ≠ []) :
    (normalize_state s).1 ≠ [] := by
  unfold normalize_state
  dsimp only
  split_ifs with h1
  · exact upper_ne_nil h
  · cases hl : lookupA stateAbbrevs (lower (strip s)) with
    | none => exact upper_ne_nil h
    | some code =>
      have hm := lookupA_mem _ _ _ hl
      exact stateAbbrevs_val_ne_nil _ hm


/-- C5: in validate_and_normalize_address, when the city is blank and the
zip parsed, a ZIP-table hit adopts the inferred city, adopts the inferred
state when the state is blank, flags zip_state_mismatch when a present
state differs from the inferred one, and records
inferred_city_state_from_zip; a table miss records zip_not_found.  On
every call the returned reason list is strictly sorted (deduplicated and
sorted) and the inferred flag holds exactly when a ZIP-inference reason
is present. -/
theorem c5_address_inference (zipDb : PyStr → Option (PyStr × PyStr))
    (address city state zip_code : PyStr) (r : AddressValidationResult)
    (hr : validate_and_normalize_address zipDb address city state zip_code = r) :
    (r.reasons.Pairwise (fun a b => lexLt a b = true))
    ∧ (r.inferred = true ↔ (txt "inferred_city_state_from_zip" ∈ r.reasons
        ∨ txt "inferred_state_from_zip" ∈ r.reasons))
    ∧ ∀ z5 : PyStr, strip city = [] → (normalize_zip zip_code).1 = some z5 →
        ((∀ ic istate : PyStr, zipDb z5 = some (ic, istate) →
            r.city = ic
            ∧ (strip state = [] → r.state = istate)
            ∧ (strip state ≠ [] → (normalize_state (strip state)).1 ≠ istate →
                txt "zip_state_mismatch" ∈ r.reasons)
            ∧ txt "inferred_city_state_from_zip" ∈ r.reasons)
        ∧ (zipDb z5 = none → txt "zip_not_found" ∈ r.reasons)) := by
  subst hr
  refine ⟨?_, ?_, ?_⟩
  · unfold validate_and_normalize_address
    dsimp only
    exact dedupSort_strict _
  · unfold validate_and_normalize_address
    dsimp only
    simp only [decide_eq_true_eq, mem_dedupSort]
  · intro z5 hcity hz5
    have hc0 : (if city ≠ [] then normalize_city city else []) = [] := by
      by_cases h : city = []
      · simp [h]
      · rw [if_pos h]
        unfold normalize_city
        rw [hcity]
        rfl
    unfold validate_and_normalize_address
    dsimp only
    rw [hz5, hc0]
    dsimp only
    constructor
    · intro ic istate hdb
      rw [hdb]
      dsimp only
      rw [if_pos rfl]
      refine ⟨rfl, ?_, ?_, ?_⟩
      · intro hst
        split_ifs <;> simp_all
      · intro hst hne
        have hst1 : (normalize_state (strip state)).1 ≠ [] := by
          apply normalize_state_fst_ne_nil
          rw [strip_idem]
          exact hst
        split_ifs with h1 <;>
          first
            | (exact absurd ⟨hst1, hne⟩ h1)
            | (exact absurd hst (by assumption))
            | (simp [mem_dedupSort])
      · split_ifs <;> simp [mem_dedupSort]
    · intro hdb
      rw [hdb]
      dsimp only
      rw [if_pos rfl]
      split_ifs <;> simp [mem_dedupSort]

/-- Witness for C5 at concrete inputs. -/
theorem c5_witness :
    (validate_and_normalize_address
        (fun z => if z = txt "90717" then some (txt "Lomita", txt "CA") else none)
        (txt "1711 245th st") (txt "") (txt "") (txt "90717")).city = txt "Lomita"
      ∧ txt "inferred_city_state_from_zip" ∈ (validate_and_normalize_address
        (fun z => if z = txt "90717" then some (txt "Lomita", txt "CA") else none)
        (txt "1711 245th st") (txt "") (txt "") (txt "90717")).reasons := by
  have h := c5_address_inference
    (fun z => if z = txt "90717" then some (txt "Lomita", txt "CA") else none)
    (txt "1711 245th st") (txt "") (txt "") (txt "90717") _ rfl
  have h3 := (h.2.2 (txt "90717") (by decide) (by decide)).1 (txt "Lomita") (txt "CA") (by decide)
  exact ⟨h3.1, h3.2.2.2⟩

theorem mem_of_getLastSome {l : PyStr} {c : Nat} (h : l.getLast? = some c) : c ∈ l := by
  rcases List.mem_getLast?_eq_getLast (Option.mem_def.mpr h) with ⟨hne, hx⟩
  rw [hx]
  exact List.getLast_mem hne

theorem abbrevValues_fixed : ∀ p ∈ abbreviations, addrToken p.2 = p.2 := by decide

theorem abbrevValues_ne_nil : ∀ p ∈ abbreviations, p.2 ≠ [] := by decide

theorem abbrevValues_ws_free : ∀ p ∈ abbreviations, ∀ c ∈ p.2, isWs c = false := by decide

theorem addrToken_idem (t : PyStr) : addrToken (addrToken t) = addrToken t := by
  unfold addrToken
  cases hl : lookupA abbreviations (stripPunct (lower t)) with
  | some v =>
    have hv := abbrevValues_fixed _ (lookupA_mem _ _ _ hl)
    unfold addrToken at hv
    exact hv
  | none =>
    rw [show stripPunct (lower (pyTitle t)) = stripPunct (lower t) from by rw [lower_pyTitle]]
    rw [hl, pyTitle_idem]

theorem addrToken_ne_nil (t : PyStr) (h : t ≠ []) : addrToken t ≠ [] := by
  unfold addrToken
  cases hl : lookupA abbreviations (stripPunct (lower t)) with
  | some v => exact abbrevValues_ne_nil _ (lookupA_mem _ _ _ hl)
  | none => exact pyTitle_ne_nil h

theorem addrToken_ws_free (t : PyStr) (h : ∀ c ∈ t, isWs c = false) :
    ∀ c ∈ addrToken t, isWs c = false := by
  unfold addrToken
  cases hl : lookupA abbreviations (stripPunct (lower t)) with
  | some v => exact abbrevValues_ws_free _ (lookupA_mem _ _ _ hl)
  | none => exact pyTitle_ws_free t h

theorem normalize_address_idem (s : PyStr) :
    normalize_address (normalize_address s) = normalize_address s := by
  by_cases hs : strip s = []
  · have h1 : normalize_address s = [] := by
      unfold normalize_address reSplitWs
      rw [hs, if_pos rfl]
      decide
    rw [h1]
    decide
  · have hts := pySplit_sound (strip s)
    have hgood : ∀ t ∈ (pySplit (strip s)).map addrToken, t ≠ [] ∧ ∀ c ∈ t, isWs c = false := by
      intro t ht
      rcases List.mem_map.mp ht with ⟨u, hu, hut⟩
      rcases hts u hu with ⟨hune, huws⟩
      exact ⟨hut ▸ addrToken_ne_nil u hune, hut ▸ addrToken_ws_free u huws⟩
    have htsne : pySplit (strip s) ≠ [] := by
      cases hss : strip s with
      | nil => exact absurd hss hs
      | cons c t =>
        have hcw : isWs c = false := by
          apply strip_head_not_ws s
          rw [hss]
          rfl
        rw [pySplit_cons, if_neg (by simp [hcw])]
        simp
    have hout : normalize_address s = joinSpace ((pySplit (strip s)).map addrToken) := by
      unfold normalize_address reSplitWs
      rw [if_neg hs]
    rcases hmap : (pySplit (strip s)).map addrToken with _ | ⟨a, rest⟩
    · exact absurd (List.map_eq_nil_iff.mp hmap) htsne
    · have hane : a ≠ [] := (hgood a (hmap ▸ List.mem_cons_self _ _)).1
      have houtne : joinSpace (a :: rest) ≠ [] := joinSpace_ne_nil a rest hane
      have hhead : ∀ c, (joinSpace (a :: rest)).head? = some c → isWs c = false := by
        intro c hc
        rw [joinSpace_head a rest hane] at hc
        exact (hgood a (hmap ▸ List.mem_cons_self _ _)).2 c (List.mem_of_mem_head? (Option.mem_def.mpr hc))
      have hlast : ∀ c, (joinSpace (a :: rest)).getLast? = some c → isWs c = false := by
        intro c hc
        rcases joinSpace_getLast_mem (a :: rest) (by simp)
            (fun t ht => (hgood t (hmap ▸ ht)).1) with ⟨t, ht, hgl⟩
        rw [hgl] at hc
        exact (hgood t (hmap ▸ ht)).2 c (mem_of_getLastSome hc)
      have hstripout : strip (joinSpace (a :: rest)) = joinSpace (a :: rest) :=
        strip_eq_self _ hhead hlast
      rw [hout, hmap]
      unfold normalize_address reSplitWs
      rw [hstripout, if_neg houtne]
      rw [show pySplit (joinSpace (a :: rest)) = a :: rest from by
        rw [pySplit_joinSpace (a :: rest) (fun t ht => hgood t (hmap ▸ ht))]]
      rw [show (a :: rest) = (pySplit (strip s)).map addrToken from hmap.symm]
      rw [List.map_map]
      rw [show (pySplit (strip s)).map (addrToken ∘ addrToken) = (pySplit (strip s)).map addrToken from
        List.map_congr_left (fun u _ => addrToken_idem u)]

theorem upper_upper (s : PyStr) : upper (upper s) = upper s := by
  unfold upper
  rw [List.map_map]
  exact List.map_congr_left (fun c _ => toUpperN_toUpperN c)

theorem lower_upper (s : PyStr) : lower (upper s) = lower s := by
  unfold lower upper
  rw [List.map_map]
  exact List.map_congr_left (fun c _ => toLowerN_toUpperN c)

theorem len_upper (s : PyStr) : (upper s).length = s.length := by
  unfold upper
  exact List.length_map _ _

theorem strip_upper_strip (s : PyStr) : strip (upper (strip s)) = upper (strip s) := by
  apply strip_eq_self
  · intro c hc
    unfold upper at hc
    rw [List.head?_map] at hc
    cases hh : (strip s).head? with
    | none => rw [hh] at hc; cases hc
    | some d =>
      rw [hh] at hc
      have hc2 : some (toUpperN d) = some c := hc
      rw [Option.some_inj] at hc2
      rw [← hc2, isWs_toUpperN]
      exact strip_head_not_ws s d hh
  · intro c hc
    unfold upper at hc
    rw [List.getLast?_map] at hc
    cases hh : (strip s).getLast? with
    | none => rw [hh] at hc; cases hc
    | some d =>
      rw [hh] at hc
      have hc2 : some (toUpperN d) = some c := hc
      rw [Option.some_inj] at hc2
      rw [← hc2, isWs_toUpperN]
      exact strip_getLast_not_ws s d hh

theorem stateAbbrevs_code_fixed : ∀ p ∈ stateAbbrevs, (normalize_state p.2).1 = p.2 := by decide

theorem normalize_state_fst_idem (s : PyStr) :
    (normalize_state (normalize_state s).1).1 = (normalize_state s).1 := by
  by_cases h1 : ((strip s).length = 2 ∧ upper (strip s) ∈ uspsStates)
  · have hin : normalize_state s = (upper (strip s), []) := by
      unfold normalize_state
      dsimp only
      rw [if_pos h1]
    rw [hin]
    show (normalize_state (upper (strip s))).1 = upper (strip s)
    unfold normalize_state
    dsimp only
    rw [strip_upper_strip, upper_upper]
    rw [if_pos ⟨by rw [len_upper]; exact h1.1, h1.2⟩]
  · cases hl : lookupA stateAbbrevs (lower (strip s)) with
    | some code =>
      have hin : normalize_state s = (code, [txt "state_name_converted"]) := by
        unfold normalize_state
        dsimp only
        rw [if_neg h1, hl]
      rw [hin]
      show (normalize_state code).1 = code
      exact stateAbbrevs_code_fixed (lower (strip s), code) (lookupA_mem _ _ _ hl)
    | none =>
      have hin : normalize_state s = (upper (strip s), [txt "invalid_state"]) := by
        unfold normalize_state
        dsimp only
        rw [if_neg h1, hl]
      rw [hin]
      show (normalize_state (upper (strip s))).1 = upper (strip s)
      unfold normalize_state
      dsimp only
      rw [strip_upper_strip, upper_upper, len_upper, lower_upper]
      rw [if_neg h1, hl]

theorem joinDash_pair (a b : PyStr) : joinDash [a, b] = a ++ 45 :: b := by
  simp [joinDash, List.intercalate]

theorem strip_of_digits (s : PyStr) (h : ∀ c ∈ s, isDigitN c = true ∨ c = 45) :
    strip s = s := by
  apply strip_eq_self
  · intro c hc
    rcases h c (List.mem_of_mem_head? (Option.mem_def.mpr hc)) with hd | hd
    · exact isWs_of_digit c hd
    · rw [hd]; rfl
  · intro c hc
    rcases h c (mem_of_getLastSome hc) with hd | hd
    · exact isWs_of_digit c hd
    · rw [hd]; rfl

/-- The zip part of the amended C8: a successfully parsed zip,
recombined the way the pipeline renders it, parses again to the
identical triple. -/
theorem normalize_zip_redo (s z5 : PyStr) (z4 : Option PyStr)
    (h : normalize_zip s = (some z5, z4, [])) :
    normalize_zip (zipDisplay z5 z4) = (some z5, z4, []) := by
  have hm : zipMatch (strip s) = some (z5, z4) := by
    unfold normalize_zip at h
    split_ifs at h with h0
    · cases h
    · cases hmm : zipMatch (strip s) with
      | none => rw [hmm] at h; cases h
      | some p =>
        rcases p with ⟨a, b⟩
        rw [hmm] at h
        rw [Prod.mk.injEq] at h
        rcases h with ⟨ha, hb⟩
        rw [Option.some_inj] at ha
        rw [Prod.mk.injEq] at hb
        rw [ha, hb.1]
  rcases zipMatch_sound _ _ _ hm with ⟨h5, hd5, h4q⟩
  have hz5ne : z5 ≠ [] := by
    intro hc
    rw [hc] at h5
    cases h5
  cases z4 with
  | none =>
    unfold normalize_zip zipDisplay
    dsimp only
    rw [if_neg hz5ne]
    rw [strip_of_digits z5 (fun c hc => Or.inl (hd5 c hc))]
    rw [zipMatch_bare z5 h5 hd5]
  | some q =>
    rcases h4q q rfl with ⟨hq4, hdq⟩
    have hqne : q ≠ [] := by
      intro hc
      rw [hc] at hq4
      cases hq4
    unfold zipDisplay
    dsimp only
    rw [if_pos hqne]
    rw [show ([z5, q].filter (fun x => decide (x ≠ []))) = [z5, q] from by
      simp [List.filter, hz5ne, hqne]]
    rw [joinDash_pair]
    unfold normalize_zip
    rw [if_neg (by simp [hz5ne])]
    rw [strip_of_digits _ (by
      intro c hc
      rcases List.mem_append.mp hc with h | h
      · exact Or.inl (hd5 c h)
      · rcases List.mem_cons.mp h with h | h
        · exact Or.inr h
        · exact Or.inl (hdq c h))]
    rw [zipMatch_sep z5 q 45 h5 hd5 hq4 hdq (Or.inl rfl)]

/-- C8 counterexample: re-running normalize_state on the output of a
first application does not return the same output unchanged: the first
run on California yields (CA, (state_name_converted,)), the second run
on CA yields (CA, ()), so the full result differs. -/
theorem c8_counterexample :
    normalize_state (txt "California") = (txt "CA", [txt "state_name_converted"])
      ∧ normalize_state ((normalize_state (txt "California")).1) = (txt "CA", [])
      ∧ normalize_state ((normalize_state (txt "California")).1)
          ≠ normalize_state (txt "California") := by
  refine ⟨by decide, by decide, by decide⟩

/-- C8 amended: the normalized values are idempotent.  normalize_address
is idempotent outright; re-running normalize_state on a returned code
returns the same code (the reason list may drop state_name_converted, as
the counterexample shows); a successfully parsed zip, recombined as the
pipeline renders it, parses again to the identical triple with no
reasons. -/
theorem c8_idempotence_amended :
    (∀ s : PyStr, normalize_address (normalize_address s) = normalize_address s)
    ∧ (∀ s : PyStr, (normalize_state (normalize_state s).1).1 = (normalize_state s).1)
    ∧ (∀ (s z5 : PyStr) (z4 : Option PyStr), normalize_zip s = (some z5, z4, []) →
        normalize_zip (zipDisplay z5 z4) = (some z5, z4, [])) :=
  ⟨normalize_address_idem, normalize_state_fst_idem, normalize_zip_redo⟩

/-- Witness for the amended C8 at concrete inputs. -/
theorem c8_witness :
    normalize_zip (zipDisplay (txt "94107") (some (txt "1234")))
      = (some (txt "94107"), some (txt "1234"), []) :=
  c8_idempotence_amended.2.2 (txt "94107 1234") (txt "94107") (some (txt "1234")) (by decide)

theorem pget_pset_self (p : List (PyStr × Option PyStr)) (k : PyStr) (v : Option PyStr) :
    pget (pset p k v) k = some v := by
  induction p with
  | nil => simp [pset, pget]
  | cons kv t ih =>
    rcases kv with ⟨k2, v2⟩
    unfold pset
    split_ifs with h
    · unfold pget
      rw [if_pos rfl]
    · unfold pget
      rw [if_neg h]
      exact ih

theorem pget_pset_other (p : List (PyStr × Option PyStr)) (k k2 : PyStr) (v : Option PyStr)
    (h : k2 ≠ k) : pget (pset p k v) k2 = pget p k2 := by
  induction p with
  | nil =>
    unfold pset pget
    rw [if_neg (fun hc => h hc.symm)]
    rfl
  | cons kv t ih =>
    rcases kv with ⟨k3, v3⟩
    unfold pset
    split_ifs with hk
    · subst hk
      unfold pget
      rw [if_neg (fun hc => h hc.symm), if_neg (fun hc => h hc.symm)]
    · unfold pget
      split_ifs with hk2
      · rfl
      · exact ih

theorem isDupYes_setDup_yes (e : Entry) : isDupYes (setDup e (txt "Yes")) = true := by
  unfold isDupYes setDup
  dsimp only
  rw [pget_pset_self]
  decide

theorem isDupYes_setDup_no (e : Entry) : isDupYes (setDup e (txt "No")) = false := by
  unfold isDupYes setDup
  dsimp only
  rw [pget_pset_self]
  decide

theorem isDupYes_fresh (e : Entry) (h : pget e.payload (txt "duplicate") = none) :
    isDupYes e = false := by
  unfold isDupYes
  rw [h]
  decide

/-- C2 amended: detect_duplicates applies the rules in order for each
record: (a) an exact match of the case-folded key against the history
index gives rule exact_key with score 1.0 and stops; (b) otherwise, when
the record has an external (heally) id, the first history record with
the same id gives rule heally_id (the claim called this rule
external_id; the source emits the string heally_id) with score 1.0 and
stops; (c) otherwise the first history record whose fuzzy score reaches
the threshold (default 0.92, the last conjunct) gives rule fuzzy with
that score and stops.  Each record yields at most one match; a matched
record is marked duplicate Yes, an unmatched one duplicate No. -/
theorem c2_detect_duplicates (smRatio : PyStr → PyStr → ℚ) (threshold : ℚ)
    (hist : List (Entry × Option Nat)) (e : Entry)
    (hfresh : pget e.payload (txt "duplicate") = none) :
    ((detectOne smRatio threshold hist e).1.length ≤ 1)
    ∧ (∀ m : Entry × Option Nat, lookupLast hist (normalized_key e) = some m →
        (detectOne smRatio threshold hist e).1 = [⟨txt "exact_key", 1, m.1, m.2⟩]
          ∧ isDupYes (detectOne smRatio threshold hist e).2 = true)
    ∧ (lookupLast hist (normalized_key e) = none →
        truthyId e.heally_id = true →
        ∀ m : Entry × Option Nat,
          hist.find? (fun it =>
              truthyId it.1.heally_id && decide (it.1.heally_id = e.heally_id)) = some m →
          (detectOne smRatio threshold hist e).1 = [⟨txt "heally_id", 1, m.1, m.2⟩]
            ∧ isDupYes (detectOne smRatio threshold hist e).2 = true)
    ∧ (lookupLast hist (normalized_key e) = none →
        (truthyId e.heally_id = false
          ∨ hist.find? (fun it =>
              truthyId it.1.heally_id && decide (it.1.heally_id = e.heally_id)) = none) →
        ∀ m : Entry × Option Nat,
          hist.find? (fun it =>
              decide (threshold ≤ fuzzy_match_score smRatio e it.1)) = some m →
          (detectOne smRatio threshold hist e).1
              = [⟨txt "fuzzy", fuzzy_match_score smRatio e m.1, m.1, m.2⟩]
            ∧ isDupYes (detectOne smRatio threshold hist e).2 = true)
    ∧ (lookupLast hist (normalized_key e) = none →
        (truthyId e.heally_id = false
          ∨ hist.find? (fun it =>
              truthyId it.1.heally_id && decide (it.1.heally_id = e.heally_id)) = none) →
        hist.find? (fun it =>
            decide (threshold ≤ fuzzy_match_score smRatio e it.1)) = none →
        (detectOne smRatio threshold hist e).1 = []
          ∧ pget (detectOne smRatio threshold hist e).2.payload (txt "duplicate")
              = some (some (txt "No")))
    ∧ (isDupYes (detectOne smRatio threshold hist e).2 = true
        ↔ (detectOne smRatio threshold hist e).1 ≠ [])
    ∧ defaultSettings.fuzzy_threshold = 92 / 100 := by
  have hfr := isDupYes_fresh e hfresh
  unfold detectOne
  cases hlk : lookupLast hist (normalized_key e) with
  | some m0 =>
    dsimp only
    refine ⟨by simp, ?_, ?_, ?_, ?_, ?_, rfl⟩
    · intro m hm
      rw [Option.some_inj] at hm
      subst hm
      exact ⟨rfl, isDupYes_setDup_yes e⟩
    · intro hnone
      cases hnone
    · intro hnone
      cases hnone
    · intro hnone
      cases hnone
    · rw [isDupYes_setDup_yes e]
      simp
  | none =>
    dsimp only
    by_cases hid : truthyId e.heally_id
    · rw [if_pos hid]
      cases hfind : hist.find? (fun it =>
          truthyId it.1.heally_id && decide (it.1.heally_id = e.heally_id)) with
      | some m0 =>
        dsimp only
        rw [if_pos (isDupYes_setDup_yes e)]
        refine ⟨by simp, ?_, ?_, ?_, ?_, ?_, rfl⟩
        · intro m hm
          cases hm
        · intro _ _ m hm
          rw [Option.some_inj] at hm
          subst hm
          exact ⟨rfl, isDupYes_setDup_yes e⟩
        · intro _ hor m hm
          rcases hor with hor | hor
          · rw [hid] at hor
            cases hor
          · cases hor
        · intro _ hor _
          rcases hor with hor | hor
          · rw [hid] at hor
            cases hor
          · cases hor
        · rw [isDupYes_setDup_yes e]
          simp
      | none =>
        dsimp only
        rw [if_neg (by rw [hfr]; exact Bool.false_ne_true)]
        cases hfz : hist.find? (fun it =>
            decide (threshold ≤ fuzzy_match_score smRatio e it.1)) with
        | some m0 =>
          dsimp only
          refine ⟨by simp, ?_, ?_, ?_, ?_, ?_, rfl⟩
          · intro m hm
            cases hm
          · intro _ _ m hm
            cases hm
          · intro _ _ m hm
            rw [Option.some_inj] at hm
            subst hm
            exact ⟨rfl, isDupYes_setDup_yes e⟩
          · intro _ _ hm
            cases hm
          · rw [isDupYes_setDup_yes e]
            simp
        | none =>
          dsimp only
          rw [if_neg (by rw [hfr]; exact Bool.false_ne_true)]
          refine ⟨by simp, ?_, ?_, ?_, ?_, ?_, rfl⟩
          · intro m hm
            cases hm
          · intro _ _ m hm
            cases hm
          · intro _ _ m hm
            cases hm
          · intro _ _ _
            refine ⟨rfl, ?_⟩
            unfold setDup
            dsimp only
            rw [pget_pset_self]
          · rw [isDupYes_setDup_no e]
            simp
    · rw [if_neg hid]
      dsimp only
      rw [if_neg (by rw [hfr]; exact Bool.false_ne_true)]
      cases hfz : hist.find? (fun it =>
          decide (threshold ≤ fuzzy_match_score smRatio e it.1)) with
      | some m0 =>
        dsimp only
        refine ⟨by simp, ?_, ?_, ?_, ?_, ?_, rfl⟩
        · intro m hm
          cases hm
        · intro _ hid2 _ _
          rw [hid2] at hid
          exact absurd rfl hid
        · intro _ _ m hm
          rw [Option.some_inj] at hm
          subst hm
          exact ⟨rfl, isDupYes_setDup_yes e⟩
        · intro _ _ hm
          cases hm
        · rw [isDupYes_setDup_yes e]
          simp
      | none =>
        dsimp only
        rw [if_neg (by rw [hfr]; exact Bool.false_ne_true)]
        refine ⟨by simp, ?_, ?_, ?_, ?_, ?_, rfl⟩
        · intro m hm
          cases hm
        · intro _ hid2 _ _
          rw [hid2] at hid
          exact absurd rfl hid
        · intro _ _ m hm
          cases hm
        · intro _ _ _
          refine ⟨rfl, ?_⟩
          unfold setDup
          dsimp only
          rw [pget_pset_self]
        · rw [isDupYes_setDup_no e]
          simp

/-- C2 counterexample: at a concrete input whose only match is by
external id, the emitted rule string is heally_id, not the external_id
of the claim. -/
theorem c2_counterexample :
    ((detectOne (fun _ _ => 0) (92 / 100)
        [(⟨txt "B", [], txt "Y", [], [], [], [], some (txt "123456"), none, [], [], [], []⟩,
          some 1)]
        ⟨txt "A", [], txt "X", [], [], [], [], some (txt "123456"), none, [], [], [], []⟩).1.map
          (fun r => r.rule)) = [txt "heally_id"]
      ∧ txt "heally_id" ≠ txt "external_id" := by
  exact ⟨by decide, by decide⟩

/-- Witness for the amended C2 at a concrete input: an exact key match
against the history index. -/
theorem c2_witness :
    (detectOne (fun _ _ => 0) (92 / 100)
        [(⟨txt "A", [], txt "X", [], [], [], [], none, none, [], [], [], []⟩, some 7)]
        ⟨txt "A", [], txt "X", [], [], [], [], none, none, [], [], [], []⟩).1
      = [⟨txt "exact_key", 1,
          ⟨txt "A", [], txt "X", [], [], [], [], none, none, [], [], [], []⟩, some 7⟩] := by
  have h := c2_detect_duplicates (fun _ _ => 0) (92 / 100)
    [(⟨txt "A", [], txt "X", [], [], [], [], none, none, [], [], [], []⟩, some 7)]
    ⟨txt "A", [], txt "X", [], [], [], [], none, none, [], [], [], []⟩ (by decide)
  exact (h.2.1 (⟨txt "A", [], txt "X", [], [], [], [], none, none, [], [], [], []⟩, some 7)
    (by decide)).1

theorem firstMatch_sound (smRatio : PyStr → PyStr → ℚ) (threshold : ℚ) :
    ∀ (seen : List Entry) (e : Entry) (i : Nat) (other : Entry) (rule : PyStr) (sc : ℚ),
      firstMatch smRatio threshold seen e = some (i, other, rule, sc) →
      seen[i]? = some other ∧ match3 smRatio threshold e other = some (rule, sc)
        ∧ ∀ j, j < i → ∀ o2, seen[j]? = some o2 → match3 smRatio threshold e o2 = none := by
  intro seen
  induction seen with
  | nil => intro e i other rule sc h; cases h
  | cons o rest ih =>
    intro e i other rule sc h
    unfold firstMatch at h
    cases hm : match3 smRatio threshold e o with
    | some rs =>
      rw [hm] at h
      rw [Option.some_inj] at h
      rw [Prod.mk.injEq, Prod.mk.injEq, Prod.mk.injEq] at h
      rcases h with ⟨hi, hother, hrule, hsc⟩
      subst hi
      subst hother
      refine ⟨by simp, ?_, ?_⟩
      · rw [hm, ← hrule, ← hsc]
      · intro j hj
        omega
    | none =>
      rw [hm] at h
      cases hf : firstMatch smRatio threshold rest e with
      | none => rw [hf] at h; cases h
      | some r =>
        rw [hf] at h
        rcases r with ⟨i2, other2, rule2, sc2⟩
        rw [Option.map_some'] at h
        rw [Option.some_inj] at h
        rw [Prod.mk.injEq, Prod.mk.injEq, Prod.mk.injEq] at h
        rcases h with ⟨hi, hother, hrule, hsc⟩
        dsimp only at hi hother hrule hsc
        subst hother
        subst hrule
        subst hsc
        rcases ih e i2 other2 rule2 sc2 hf with ⟨hget, hmatch, hprev⟩
        subst hi
        refine ⟨by simpa using hget, hmatch, ?_⟩
        intro j hj o2 hgo
        cases j with
        | zero =>
          rw [show ((o :: rest)[0]? : Option Entry) = some o from by simp] at hgo
          rw [Option.some_inj] at hgo
          rw [← hgo]
          exact hm
        | succ j2 =>
          rw [show ((o :: rest)[j2 + 1]? : Option Entry) = rest[j2]? from by simp] at hgo
          exact hprev j2 (by omega) o2 hgo

theorem firstMatch_none (smRatio : PyStr → PyStr → ℚ) (threshold : ℚ) :
    ∀ (seen : List Entry) (e : Entry),
      firstMatch smRatio threshold seen e = none →
      ∀ o ∈ seen, match3 smRatio threshold e o = none := by
  intro seen
  induction seen with
  | nil => intro e _ o ho; cases ho
  | cons o2 rest ih =>
    intro e h o ho
    unfold firstMatch at h
    cases hm : match3 smRatio threshold e o2 with
    | some rs => rw [hm] at h; cases h
    | none =>
      rw [hm] at h
      rcases List.mem_cons.mp ho with h1 | h1
      · rw [h1]; exact hm
      · cases hf : firstMatch smRatio threshold rest e with
        | some r => rw [hf] at h; cases h
        | none => exact ih e hf o h1

theorem promote_dup (x : Entry) : isDupYes (promote x) = true := by
  unfold isDupYes promote
  dsimp only
  rw [pget_pset_other _ _ _ _ (by decide), pget_pset_self]
  decide

theorem promote_payload_source (x : Entry) :
    pget (promote x).payload (txt "list_source") = some (some (txt "Both Lists")) := by
  unfold promote
  dsimp only
  rw [pget_pset_self]

/-- C3: within-batch deduplication processes each record against the
previously seen records in order; at the first seen record that matches
(exact key, or same external id, or fuzzy score at least the threshold,
the rules of match3 in source order) BOTH the current record and the
matched record are marked duplicate Yes and have their source list
promoted to Both Lists (the Both of the claim), whatever lists the two
records came from, and scanning stops: only the matched seen record is
replaced.  Without a match the record is marked duplicate No unless
already Yes. -/
theorem c3_dedup_within_batch (smRatio : PyStr → PyStr → ℚ) (threshold : ℚ)
    (seen : List Entry) (reps : List DupReport) (e : Entry) :
    (∀ (i : Nat) (other : Entry) (rule : PyStr) (sc : ℚ),
      firstMatch smRatio threshold seen e = some (i, other, rule, sc) →
      seen[i]? = some other
        ∧ match3 smRatio threshold e other = some (rule, sc)
        ∧ (∀ j, j < i → ∀ o2, seen[j]? = some o2 → match3 smRatio threshold e o2 = none)
        ∧ dedupStep smRatio threshold (seen, reps) e
            = (seen.set i (promote other) ++ [promote e], reps ++ [⟨rule, sc, other, none⟩])
        ∧ isDupYes (promote e) = true
        ∧ (promote e).list_source = txt "Both Lists"
        ∧ pget (promote e).payload (txt "list_source") = some (some (txt "Both Lists"))
        ∧ isDupYes (promote other) = true
        ∧ (promote other).list_source = txt "Both Lists"
        ∧ pget (promote other).payload (txt "list_source") = some (some (txt "Both Lists"))
        ∧ ∀ j, j ≠ i → (seen.set i (promote other))[j]? = seen[j]?)
    ∧ (firstMatch smRatio threshold seen e = none →
        (∀ o ∈ seen, match3 smRatio threshold e o = none)
        ∧ dedupStep smRatio threshold (seen, reps) e
            = (seen ++ [if isDupYes e then e else setDup e (txt "No")], reps))
    ∧ deduplicate_within_batch smRatio threshold []
        = (([] : List Entry), ([] : List DupReport)) := by
  refine ⟨?_, ?_, rfl⟩
  · intro i other rule sc hf
    rcases firstMatch_sound smRatio threshold seen e i other rule sc hf with ⟨hget, hmatch, hprev⟩
    refine ⟨hget, hmatch, hprev, ?_, promote_dup e, rfl, promote_payload_source e,
      promote_dup other, rfl, promote_payload_source other, ?_⟩
    · unfold dedupStep
      rw [hf]
    · intro j hj
      exact List.getElem?_set_ne (fun hc => hj hc.symm)
  · intro hf
    refine ⟨firstMatch_none smRatio threshold seen e hf, ?_⟩
    unfold dedupStep
    rw [hf]

/-- Witness for C3 at a concrete input: a New Visit record matching a
seen Reprint record by exact key; both get duplicate Yes and list
source Both Lists. -/
theorem c3_witness :
    isDupYes (promote
        (⟨txt "A", [], txt "X", [], [], [], [], none, none, txt "New Visit", [], [], []⟩ : Entry))
      = true
    ∧ (promote
        (⟨txt "A", [], txt "X", [], [], [], [], none, none, txt "Reprint", [], [], []⟩ : Entry)).list_source
      = txt "Both Lists" := by
  have h := c3_dedup_within_batch (fun _ _ => 0) (92 / 100)
    [⟨txt "A", [], txt "X", [], [], [], [], none, none, txt "Reprint", [], [], []⟩] []
    ⟨txt "A", [], txt "X", [], [], [], [], none, none, txt "New Visit", [], [], []⟩
  have h1 := h.1 0 (⟨txt "A", [], txt "X", [], [], [], [], none, none, txt "Reprint", [], [], []⟩)
    (txt "exact_key_batch") 1 (by decide)
  exact ⟨h1.2.2.2.2.1, h1.2.2.2.2.2.2.2.2.1⟩

theorem payloadKeys_pset_mem (p : List (PyStr × Option PyStr)) (k : PyStr) (v : Option PyStr)
    (h : k ∈ payloadKeys p) : payloadKeys (pset p k v) = payloadKeys p := by
  induction p with
  | nil => cases h
  | cons kv t ih =>
    rcases kv with ⟨k2, v2⟩
    unfold pset
    split_ifs with hk
    · subst hk
      rfl
    · unfold payloadKeys at h ⊢
      rw [List.map_cons] at h ⊢
      rcases List.mem_cons.mp h with h1 | h1
    
      · exact absurd h1.symm hk
      · rw [List.map_cons]
        rw [show List.map (fun kv => kv.1) (pset t k v) = List.map (fun kv => kv.1) t from ih h1]

theorem payloadKeys_pset_new (p : List (PyStr × Option PyStr)) (k : PyStr) (v : Option PyStr)
    (h : k ∉ payloadKeys p) : payloadKeys (pset p k v) = payloadKeys p ++ [k] := by
  induction p with
  | nil => rfl
  | cons kv t ih =>
    rcases kv with ⟨k2, v2⟩
    unfold pset
    split_ifs with hk
    · subst hk
      exact absurd (by unfold payloadKeys; simp) h
    · unfold payloadKeys at h ⊢
      rw [List.map_cons] at h ⊢
      rw [List.map_cons]
      have h2 : k ∉ List.map (fun kv => kv.1) t := fun hc => h (List.mem_cons_of_mem _ hc)
      rw [show List.map (fun kv => kv.1) (pset t k v)
        = List.map (fun kv => kv.1) t ++ [k] from ih h2]
      rfl

theorem pget_none_of_not_mem (p : List (PyStr × Option PyStr)) (k : PyStr)
    (h : k ∉ payloadKeys p) : pget p k = none := by
  induction p with
  | nil => rfl
  | cons kv t ih =>
    rcases kv with ⟨k2, v2⟩
    unfold pget
    rw [if_neg (fun hc => h (by unfold payloadKeys; rw [List.map_cons, hc]; exact List.mem_cons_self _ _))]
    exact ih (fun hc => h (by unfold payloadKeys at hc ⊢; rw [List.map_cons]; exact List.mem_cons_of_mem _ hc))

theorem setDup_keys (e : Entry) (v : PyStr)
    (h : txt "duplicate" ∉ payloadKeys e.payload) :
    payloadKeys (setDup e v).payload = payloadKeys e.payload ++ [txt "duplicate"] := by
  unfold setDup
  dsimp only
  exact payloadKeys_pset_new _ _ _ h

theorem detectOne_keys (smRatio : PyStr → PyStr → ℚ) (threshold : ℚ)
    (hist : List (Entry × Option Nat)) (e : Entry)
    (h : txt "duplicate" ∉ payloadKeys e.payload) :
    payloadKeys (detectOne smRatio threshold hist e).2.payload
      = payloadKeys e.payload ++ [txt "duplicate"] := by
  have hfr : isDupYes e = false := by
    unfold isDupYes
    rw [pget_none_of_not_mem _ _ h]
    decide
  unfold detectOne
  cases hlk : lookupLast hist (normalized_key e) with
  | some m0 =>
    dsimp only
    exact setDup_keys e _ h
  | none =>
    dsimp only
    by_cases hid : truthyId e.heally_id
    · rw [if_pos hid]
      cases hfind : hist.find? (fun it =>
          truthyId it.1.heally_id && decide (it.1.heally_id = e.heally_id)) with
      | some m0 =>
        dsimp only
        rw [if_pos (isDupYes_setDup_yes e)]
        exact setDup_keys e _ h
      | none =>
        dsimp only
        rw [if_neg (by rw [hfr]; exact Bool.false_ne_true)]
        cases hfz : hist.find? (fun it =>
            decide (threshold ≤ fuzzy_match_score smRatio e it.1)) with
        | some m0 =>
          dsimp only
          exact setDup_keys e _ h
        | none =>
          dsimp only
          rw [if_neg (by rw [hfr]; exact Bool.false_ne_true)]
          exact setDup_keys e _ h
    · rw [if_neg hid]
      dsimp only
      rw [if_neg (by rw [hfr]; exact Bool.false_ne_true)]
      cases hfz : hist.find? (fun it =>
          decide (threshold ≤ fuzzy_match_score smRatio e it.1)) with
      | some m0 =>
        dsimp only
        exact setDup_keys e _ h
      | none =>
        dsimp only
        rw [if_neg (by rw [hfr]; exact Bool.false_ne_true)]
        exact setDup_keys e _ h

theorem promote_keys (x : Entry) (hd : txt "duplicate" ∈ payloadKeys x.payload)
    (hl : txt "list_source" ∈ payloadKeys x.payload) :
    payloadKeys (promote x).payload = payloadKeys x.payload := by
  unfold promote
  dsimp only
  rw [payloadKeys_pset_mem _ _ _ (by rw [payloadKeys_pset_mem _ _ _ hd]; exact hl)]
  exact payloadKeys_pset_mem _ _ _ hd

theorem normalizeRow_keys (parseDT : Option PyStr → Option PyStr × List PyStr)
    (zipDb : PyStr → Option (PyStr × PyStr)) (lt : PyStr) (row : RawRow) :
    payloadKeys (normalizeRow parseDT zipDb lt row).payload
      = [txt "name", txt "clinic_name", txt "address", txt "city", txt "state", txt "zip",
         txt "zip4", txt "heally_link", txt "heally_id", txt "date_time", txt "list_source"] := rfl

theorem dedupStep_keys_inv (smRatio : PyStr → PyStr → ℚ) (threshold : ℚ) :
    ∀ (entries : List Entry) (st : List Entry × List DupReport),
      (∀ x ∈ st.1, payloadKeys x.payload = payloadFieldNames) →
      (∀ x ∈ entries, payloadKeys x.payload = payloadFieldNames) →
      ∀ x ∈ (entries.foldl (dedupStep smRatio threshold) st).1,
        payloadKeys x.payload = payloadFieldNames := by
  intro entries
  induction entries with
  | nil => intro st hst _ x hx; exact hst x hx
  | cons e rest ih =>
    intro st hst hent x hx
    rw [List.foldl_cons] at hx
    have hdupmem : txt "duplicate" ∈ payloadFieldNames := by decide
    have hlsmem : txt "list_source" ∈ payloadFieldNames := by decide
    have he := hent e (List.mem_cons_self _ _)
    have hstep : ∀ y ∈ (dedupStep smRatio threshold st e).1,
        payloadKeys y.payload = payloadFieldNames := by
      intro y hy
      unfold dedupStep at hy
      cases hf : firstMatch smRatio threshold st.1 e with
      | some r =>
        rcases r with ⟨i, other, rule, sc⟩
        rw [hf] at hy
        dsimp only at hy
        rcases firstMatch_sound smRatio threshold st.1 e i other rule sc hf
          with ⟨hget, _, _⟩
        have hom : other ∈ st.1 := List.getElem?_mem hget
        have hokeys := hst other hom
        rcases List.mem_append.mp hy with h1 | h1
        · rcases List.mem_or_eq_of_mem_set h1 with h2 | h2
          · exact hst y h2
          · rw [h2, promote_keys other (hokeys ▸ hdupmem) (hokeys ▸ hlsmem)]
            exact hokeys
        · rw [List.mem_singleton.mp h1]
          rw [promote_keys e (he ▸ hdupmem) (he ▸ hlsmem)]
          exact he
      | none =>
        rw [hf] at hy
        dsimp only at hy
        rcases List.mem_append.mp hy with h1 | h1
        · exact hst y h1
        · rw [List.mem_singleton.mp h1]
          split_ifs
          · exact he
          · rw [show payloadKeys (setDup e (txt "No")).payload = payloadKeys e.payload from by
              unfold setDup
              dsimp only
              exact payloadKeys_pset_mem _ _ _ (he ▸ hdupmem)]
            exact he
    exact ih _ hstep (fun y hy => hent y (List.mem_cons_of_mem _ hy)) x hx

/-- C4 amended: every record persisted by process carries a normalized
payload whose field names are exactly, and in insertion order,
name, clinic_name, address, city, state, zip, zip4, heally_link,
heally_id, date_time, list_source, duplicate.  The claim named the two
identifier fields external_link and external_id; the source writes
heally_link and heally_id. -/
theorem c4_payload_keys (parseDT : Option PyStr → Option PyStr × List PyStr)
    (zipDb : PyStr → Option (PyStr × PyStr)) (smRatio : PyStr → PyStr → ℚ)
    (threshold : ℚ) (hist : List (Entry × Option Nat)) (newRows reRows : List RawRow) :
    ∀ x ∈ (processEntries parseDT zipDb smRatio threshold hist newRows reRows).1,
      payloadKeys x.payload = payloadFieldNames := by
  intro x hx
  unfold processEntries at hx
  dsimp only at hx
  rcases List.mem_map.mp hx with ⟨y, hy, hxy⟩
  have hrc : payloadKeys (reconcileSource y).payload = payloadKeys y.payload := by
    unfold reconcileSource
    split_ifs <;> rfl
  rw [← hxy, hrc]
  unfold deduplicate_within_batch at hy
  refine dedupStep_keys_inv smRatio threshold _ ([], [])
    (fun z hz => absurd hz (List.not_mem_nil z)) ?_ y hy
  intro z hz
  unfold detect_duplicates at hz
  dsimp only at hz
  rw [List.map_map] at hz
  rcases List.mem_map.mp hz with ⟨w, hw, hwz⟩
  have hkw : payloadKeys w.payload
      = [txt "name", txt "clinic_name", txt "address", txt "city", txt "state", txt "zip",
         txt "zip4", txt "heally_link", txt "heally_id", txt "date_time", txt "list_source"] := by
    rcases List.mem_append.mp hw with h1 | h1
    · rcases List.mem_map.mp h1 with ⟨row, _, hrow⟩
      rw [← hrow]
      exact normalizeRow_keys parseDT zipDb _ row
    · rcases List.mem_map.mp h1 with ⟨row, _, hrow⟩
      rw [← hrow]
      exact normalizeRow_keys parseDT zipDb _ row
  have hnd : txt "duplicate" ∉ payloadKeys w.payload := by
    rw [hkw]
    decide
  rw [← hwz]
  show payloadKeys (detectOne smRatio threshold hist w).2.payload = payloadFieldNames
  rw [detectOne_keys smRatio threshold hist w hnd, hkw]
  rfl

/-- C4 counterexample: a concrete run of process persists a payload with
field names heally_link and heally_id; the external_link of the claim is
not among the field names. -/
theorem c4_counterexample :
    ((processEntries (fun _ => (none, [txt "missing_datetime"])) (fun _ => none)
          (fun _ _ => 0) (92 / 100) []
          [⟨txt "Smith, John", txt "1 Main St", txt "Anytown", txt "CA", txt "94107",
            txt "acme clinic", none, none, [txt "Smith, John"]⟩] []).1.map
        (fun e => payloadKeys e.payload)) = [payloadFieldNames]
      ∧ txt "external_link" ∉ payloadFieldNames
      ∧ txt "external_id" ∉ payloadFieldNames
      ∧ txt "heally_link" ∈ payloadFieldNames
      ∧ txt "heally_id" ∈ payloadFieldNames := by
  refine ⟨by decide, by decide, by decide, by decide, by decide⟩

/-- Witness for the amended C4 at a concrete input. -/
theorem c4_witness :
    payloadKeys ((processEntries (fun _ => (none, [txt "missing_datetime"])) (fun _ => none)
        (fun _ _ => 0) (92 / 100) []
        [⟨txt "Smith, John", txt "1 Main St", txt "Anytown", txt "CA", txt "94107",
          txt "acme clinic", none, none, [txt "Smith, John"]⟩] []).1.headD
        ⟨[], [], [], [], [], [], [], none, none, [], [], [], []⟩).payload
      = payloadFieldNames := by
  have h := c4_payload_keys (fun _ => (none, [txt "missing_datetime"])) (fun _ => none)
    (fun _ _ => 0) (92 / 100) []
    [⟨txt "Smith, John", txt "1 Main St", txt "Anytown", txt "CA", txt "94107",
      txt "acme clinic", none, none, [txt "Smith, John"]⟩] []
  exact h _ (by decide)

theorem keyLt_total (a b : PyStr × PyStr) :
    keyLt a b = true ∨ a = b ∨ keyLt b a = true := by
  unfold keyLt
  simp only [Bool.or_eq_true, Bool.and_eq_true, decide_eq_true_eq]
  rcases lexLt_total a.1 b.1 with h | h | h
  · exact Or.inl (Or.inl h)
  · rcases lexLt_total a.2 b.2 with h2 | h2 | h2
    · exact Or.inl (Or.inr ⟨h, h2⟩)
    · exact Or.inr (Or.inl (Prod.ext h h2))
    · exact Or.inr (Or.inr (Or.inr ⟨h.symm, h2⟩))
  · exact Or.inr (Or.inr (Or.inl h))

theorem keyLt_trans (a b c : PyStr × PyStr) (hab : keyLt a b = true)
    (hbc : keyLt b c = true) : keyLt a c = true := by
  unfold keyLt at hab hbc ⊢
  simp only [Bool.or_eq_true, Bool.and_eq_true, decide_eq_true_eq] at hab hbc ⊢
  rcases hab with h1 | ⟨h1e, h1lt⟩
  · rcases hbc with h2 | ⟨h2e, h2lt⟩
    · exact Or.inl (lexLt_trans _ _ _ h1 h2)
    · exact Or.inl (h2e ▸ h1)
  · rcases hbc with h2 | ⟨h2e, h2lt⟩
    · exact Or.inl (h1e ▸ h2)
    · exact Or.inr ⟨h1e.trans h2e, lexLt_trans _ _ _ h1lt h2lt⟩

instance : IsTotal (Nat × Entry) exportRel :=
  ⟨by
    intro x y
    unfold exportRel exportLe
    simp only [Bool.or_eq_true, Bool.and_eq_true, decide_eq_true_eq]
    rcases keyLt_total (exportKey x.2) (exportKey y.2) with h | h | h
    · exact Or.inl (Or.inl h)
    · rcases Nat.le_total x.1 y.1 with h2 | h2
      · exact Or.inl (Or.inr ⟨h, h2⟩)
      · exact Or.inr (Or.inr ⟨h.symm, h2⟩)
    · exact Or.inr (Or.inl h)⟩

instance : IsTrans (Nat × Entry) exportRel :=
  ⟨by
    intro x y z hxy hyz
    unfold exportRel exportLe at hxy hyz ⊢
    simp only [Bool.or_eq_true, Bool.and_eq_true, decide_eq_true_eq] at hxy hyz ⊢
    rcases hxy with h1 | ⟨h1e, h1le⟩
    · rcases hyz with h2 | ⟨h2e, h2le⟩
      · exact Or.inl (keyLt_trans _ _ _ h1 h2)
      · exact Or.inl (h2e ▸ h1)
    · rcases hyz with h2 | ⟨h2e, h2le⟩
      · exact Or.inl (h1e ▸ h2)
      · exact Or.inr ⟨h1e.trans h2e, Nat.le_trans h1le h2le⟩⟩

/-- C9: export emits the stamps table and the combined table in the same
order, obtained by stably sorting the records by the case-folded first
name token, then the case-folded last name token, ascending, ties broken
by the original input position.  The sorted index-tagged list is
pairwise ordered under exportRel, which the fifth conjunct unfolds into
the claimed comparison; the enum tags are the original positions.  The
hypothesis excludes names that are nonempty but whitespace-only, on
which the source sort key raises. -/
theorem c9_export_order (entries : List Entry)
    (hnames : ∀ e ∈ entries, e.name = [] ∨ pySplit e.name ≠ []) :
    (exportTables entries).1 = (exportOrder entries).map stampsRow
    ∧ (exportTables entries).2 = (exportOrder entries).map combinedRow
    ∧ (exportOrder entries).Perm entries
    ∧ (List.insertionSort exportRel entries.enum).Pairwise exportRel
    ∧ (∀ x y : Nat × Entry, exportRel x y ↔
        (keyLt (exportKey x.2) (exportKey y.2) = true
          ∨ (exportKey x.2 = exportKey y.2 ∧ x.1 ≤ y.1)))
    ∧ entries.enum.map Prod.snd = entries := by
  refine ⟨rfl, rfl, ?_, ?_, ?_, List.enum_map_snd entries⟩
  · unfold exportOrder
    have hperm := List.perm_insertionSort exportRel entries.enum
    have hm := hperm.map Prod.snd
    rw [List.enum_map_snd] at hm
    exact hm
  · exact List.sorted_insertionSort exportRel entries.enum
  · intro x y
    unfold exportRel exportLe
    simp only [Bool.or_eq_true, Bool.and_eq_true, decide_eq_true_eq]

/-- Witness for C9 at a concrete input: two records given in reverse
name order come out sorted, as a permutation of the input. -/
theorem c9_witness :
    (exportOrder
        [⟨txt "Zed Young", [], [], [], [], [], [], none, none, [], [], [], []⟩,
         ⟨txt "Ann Old", [], [], [], [], [], [], none, none, [], [], [], []⟩]).Perm
      [⟨txt "Zed Young", [], [], [], [], [], [], none, none, [], [], [], []⟩,
       ⟨txt "Ann Old", [], [], [], [], [], [], none, none, [], [], [], []⟩]
    ∧ exportOrder
        [⟨txt "Zed Young", [], [], [], [], [], [], none, none, [], [], [], []⟩,
         ⟨txt "Ann Old", [], [], [], [], [], [], none, none, [], [], [], []⟩]
      = [⟨txt "Ann Old", [], [], [], [], [], [], none, none, [], [], [], []⟩,
         ⟨txt "Zed Young", [], [], [], [], [], [], none, none, [], [], [], []⟩] := by
  have h := c9_export_order
    [⟨txt "Zed Young", [], [], [], [], [], [], none, none, [], [], [], []⟩,
     ⟨txt "Ann Old", [], [], [], [], [], [], none, none, [], [], [], []⟩]
    (by decide)
  exact ⟨h.2.2.1, by decide⟩
